import Mathlib

/-!
Verification of the sync-and-conflict-resolution core of the Dynamic Quote
Generator (`dom-manipulation/script.js`) and of the category-filtering
variant's `addQuote`.  The JavaScript is shallowly embedded: the global
mutable arrays `quotes` and `pendingLocalChanges` become explicit list-valued
state threaded through each function; the network becomes an explicit
response oracle; `Date.now()` / `Math.random()` / `new Date().toISOString()`
become explicit parameters.
-/

set_option autoImplicit false

/-- Embeds the server/local quote object `{ id, text, category, updatedAt }`.
`updatedAt` is optional because the code guards with `local.updatedAt || ""`. -/
structure Quote where
  id : String
  text : String
  category : String
  updatedAt : Option String
deriving Repr, DecidableEq

/-- Embeds an entry of `pendingLocalChanges`: `{ op, quote }`. -/
structure PendingChange where
  op : String
  quote : Quote
deriving Repr, DecidableEq

/-- Embeds a conflict object `{ local, server }` returned by
`mergeServerIntoLocal` (`local` is renamed `localQ`, a reserved word). -/
structure Conflict where
  localQ : Quote
  server : Quote
deriving Repr, DecidableEq

/-- Lexicographic `<` on char lists by code point, mirroring the JavaScript
`<`/`>` string comparison used on `updatedAt` values. -/
def charListLt : List Char → List Char → Bool
  | [], [] => false
  | [], _ :: _ => true
  | _ :: _, [] => false
  | a :: as, b :: bs =>
    if a.toNat < b.toNat then true
    else if b.toNat < a.toNat then false
    else charListLt as bs

/-- JavaScript string `<` (so `a > b` in the source is `jsLt b a`). -/
def jsLt (a b : String) : Bool := charListLt a.data b.data

/-- Embeds `q.updatedAt || ""`. -/
def tsOf (q : Quote) : String := q.updatedAt.getD ""

/-- The list of ids of a quote collection. -/
def idsOf (qs : List Quote) : List String := qs.map (fun q => q.id)

/-- Id uniqueness, the Local Store invariant claimed by the spec. -/
def uniqueIds (qs : List Quote) : Prop := (idsOf qs).Nodup

instance uniqueIdsDec (qs : List Quote) : Decidable (uniqueIds qs) :=
  inferInstanceAs (Decidable (idsOf qs).Nodup)

/-- Embeds `qs.findIndex(q => String(q.id) === String(sid)) !== -1`. -/
def hasIdB (qs : List Quote) (sid : String) : Bool :=
  qs.any (fun q => q.id == sid)

/-- Embeds `new Map(qs.map(q => [String(q.id), q])).get(sid)`: a JavaScript
`Map` built from pairs keeps the LAST value bound to each key. -/
def byIdLast : List Quote → String → Option Quote
  | [], _ => none
  | q :: rest, sid =>
    match byIdLast rest sid with
    | some r => some r
    | none => if q.id == sid then some q else none

/-- One `Map.set` step: overwrite an existing key in place, else append. -/
def setEntry (acc : List (String × Quote)) (k : String) (v : Quote) :
    List (String × Quote) :=
  if acc.any (fun p => p.1 == k) then
    acc.map (fun p => if p.1 == k then (k, v) else p)
  else acc ++ [(k, v)]

/-- The entry sequence of a JavaScript `Map` built from a pair list:
first-occurrence key order, last value per key. -/
def mapEntries (ps : List (String × Quote)) : List (String × Quote) :=
  ps.foldl (fun acc p => setEntry acc p.1 p.2) []

/-- Entries of `new Map(serverQuotes.map(s => [String(s.id), s]))`. -/
def entriesOf (serverQuotes : List Quote) : List (String × Quote) :=
  mapEntries (serverQuotes.map (fun s => (s.id, s)))

/-- Embeds `const idx = qs.findIndex(q => String(q.id) === String(sid));
if (idx !== -1) qs[idx] = s` — replace the first id match, else no-op. -/
def replaceFirst : List Quote → String → Quote → List Quote
  | [], _, _ => []
  | q :: rest, sid, s =>
    if q.id == sid then s :: rest else q :: replaceFirst rest sid s

/-- The body of the `for (const [sid, sItem] of serverById.entries())` loop of
`mergeServerIntoLocal`, acting on the state `(quotes, conflicts)`.  `f` is the
`localById` lookup snapshot taken before the loop, `pending` the (unmutated)
`pendingLocalChanges`. -/
def mergeStep (f : String → Option Quote) (pending : List PendingChange)
    (st : List Quote × List Conflict) (p : String × Quote) :
    List Quote × List Conflict :=
  match f p.1 with
  | none => (st.1 ++ [p.2], st.2)
  | some l =>
    if jsLt (tsOf l) (tsOf p.2) then
      (replaceFirst st.1 l.id p.2,
       if pending.any (fun ch => ch.quote.id == l.id) && !(l.text == p.2.text)
       then st.2 ++ [⟨l, p.2⟩] else st.2)
    else if jsLt (tsOf p.2) (tsOf l) then
      if hasIdB st.1 l.id
      then (replaceFirst st.1 l.id p.2, st.2 ++ [⟨l, p.2⟩])
      else st
    else st

/-- The whole merge loop over the `serverById` entry list. -/
def mergeRun (f : String → Option Quote) (pending : List PendingChange) :
    List Quote × List Conflict → List (String × Quote) →
    List Quote × List Conflict
  | st, [] => st
  | st, p :: rest => mergeRun f pending (mergeStep f pending st p) rest

/-- Embeds `mergeServerIntoLocal(serverQuotes)`: reads the globals
`quotes`/`pendingLocalChanges`, returns the new `quotes` paired with the
returned `conflicts` array. -/
def mergeServerIntoLocal (quotes0 : List Quote) (pending : List PendingChange)
    (serverQuotes : List Quote) : List Quote × List Conflict :=
  mergeRun (byIdLast quotes0) pending (quotes0, []) (entriesOf serverQuotes)

/- ### Basic lemmas on the string order -/

theorem charListLt_irrefl : ∀ as : List Char, charListLt as as = false
  | [] => rfl
  | a :: as => by
    simp only [charListLt, lt_irrefl, if_false]
    exact charListLt_irrefl as

theorem jsLt_irrefl (a : String) : jsLt a a = false :=
  charListLt_irrefl a.data

theorem char_eq_of_toNat_eq {a b : Char} (h : a.toNat = b.toNat) : a = b :=
  Char.eq_of_val_eq (UInt32.eq_of_toBitVec_eq (BitVec.eq_of_toNat_eq h))

theorem charListLt_eq_of_not_lt :
    ∀ as bs : List Char, charListLt as bs = false → charListLt bs as = false →
      as = bs
  | [], [], _, _ => rfl
  | [], _ :: _, h, _ => by simp [charListLt] at h
  | _ :: _, [], _, h => by simp [charListLt] at h
  | a :: as, b :: bs, h1, h2 => by
    simp only [charListLt] at h1 h2
    by_cases hab : a.toNat < b.toNat
    · simp [hab] at h1
    · by_cases hba : b.toNat < a.toNat
      · simp [hba] at h2
      · have hna : a = b := char_eq_of_toNat_eq
          (Nat.le_antisymm (Nat.le_of_not_lt hba) (Nat.le_of_not_lt hab))
        subst hna
        simp only [hab, if_false, lt_irrefl] at h1 h2
        have := charListLt_eq_of_not_lt as bs h1 h2
        rw [this]

theorem jsLt_eq_of_not_lt {a b : String} (h1 : jsLt a b = false)
    (h2 : jsLt b a = false) : a = b := by
  cases a with
  | mk da =>
    cases b with
    | mk db =>
      have : da = db := charListLt_eq_of_not_lt da db h1 h2
      rw [this]

theorem charListLt_asymm :
    ∀ as bs : List Char, charListLt as bs = true → charListLt bs as = false
  | [], [], h => by simp [charListLt] at h
  | [], _ :: _, _ => rfl
  | _ :: _, [], h => by simp [charListLt] at h
  | a :: as, b :: bs, h => by
    simp only [charListLt] at h ⊢
    by_cases hab : a.toNat < b.toNat
    · have hba : ¬ b.toNat < a.toNat := by omega
      simp [hab, hba]
    · by_cases hba : b.toNat < a.toNat
      · simp [hab, hba] at h
      · simp only [hab, hba, if_false] at h ⊢
        exact charListLt_asymm as bs h

theorem jsLt_asymm {a b : String} (h : jsLt a b = true) : jsLt b a = false :=
  charListLt_asymm a.data b.data h

/- ### Lemmas on the id helpers -/

theorem hasIdB_iff {qs : List Quote} {x : String} :
    hasIdB qs x = true ↔ ∃ q ∈ qs, q.id = x := by
  simp [hasIdB, List.any_eq_true, beq_iff_eq]

theorem unique_elim {qs : List Quote} (h : uniqueIds qs) {q q' : Quote}
    (hq : q ∈ qs) (hq' : q' ∈ qs) (hid : q.id = q'.id) : q = q' :=
  List.inj_on_of_nodup_map h hq hq' hid

theorem byIdLast_some : ∀ {qs : List Quote} {sid : String} {q : Quote},
    byIdLast qs sid = some q → q ∈ qs ∧ q.id = sid := by
  intro qs
  induction qs with
  | nil => intro sid q h; simp [byIdLast] at h
  | cons a rest ih =>
    intro sid q h
    simp only [byIdLast] at h
    cases hr : byIdLast rest sid with
    | some r =>
      rw [hr] at h
      cases h
      have := ih hr
      exact ⟨List.mem_cons_of_mem a this.1, this.2⟩
    | none =>
      rw [hr] at h
      by_cases ha : a.id == sid
      · rw [if_pos ha] at h
        cases h
        exact ⟨List.mem_cons_self a rest, beq_iff_eq.mp ha⟩
      · rw [if_neg ha] at h
        cases h

theorem byIdLast_none : ∀ {qs : List Quote} {sid : String},
    byIdLast qs sid = none → ∀ q ∈ qs, q.id ≠ sid := by
  intro qs
  induction qs with
  | nil => intro sid _ q hq; cases hq
  | cons a rest ih =>
    intro sid h q hq
    simp only [byIdLast] at h
    cases hr : byIdLast rest sid with
    | some r => rw [hr] at h; cases h
    | none =>
      rw [hr] at h
      by_cases ha : a.id == sid
      · rw [if_pos ha] at h; cases h
      · rw [if_neg ha] at h
        rcases List.mem_cons.mp hq with he | hm
        · subst he
          exact fun hc => ha (beq_iff_eq.mpr hc)
        · exact ih hr q hm

theorem byIdLast_mem_of_unique {qs : List Quote} (hu : uniqueIds qs)
    {q : Quote} (hq : q ∈ qs) : byIdLast qs q.id = some q := by
  cases hb : byIdLast qs q.id with
  | none => exact absurd rfl (byIdLast_none hb q hq)
  | some r =>
    have hr := byIdLast_some hb
    have : r = q := unique_elim hu hr.1 hq hr.2
    rw [this]

/- ### Lemmas on replaceFirst -/

theorem replaceFirst_mem_of_ne : ∀ {qs : List Quote} {sid : String} {s q : Quote},
    q ∈ qs → q.id ≠ sid → q ∈ replaceFirst qs sid s := by
  intro qs
  induction qs with
  | nil => intro sid s q hq _; cases hq
  | cons a rest ih =>
    intro sid s q hq hne
    simp only [replaceFirst]
    by_cases ha : a.id == sid
    · rw [if_pos ha]
      rcases List.mem_cons.mp hq with he | hm
      · subst he; exact absurd (beq_iff_eq.mp ha) hne
      · exact List.mem_cons_of_mem s hm
    · rw [if_neg ha]
      rcases List.mem_cons.mp hq with he | hm
      · subst he; exact List.mem_cons_self q _
      · exact List.mem_cons_of_mem a (ih hm hne)

theorem replaceFirst_mem_rev : ∀ {qs : List Quote} {sid : String} {s q : Quote},
    q ∈ replaceFirst qs sid s → q = s ∨ q ∈ qs := by
  intro qs
  induction qs with
  | nil => intro sid s q hq; cases hq
  | cons a rest ih =>
    intro sid s q hq
    simp only [replaceFirst] at hq
    by_cases ha : a.id == sid
    · rw [if_pos ha] at hq
      rcases List.mem_cons.mp hq with he | hm
      · exact Or.inl he
      · exact Or.inr (List.mem_cons_of_mem a hm)
    · rw [if_neg ha] at hq
      rcases List.mem_cons.mp hq with he | hm
      · subst he; exact Or.inr (List.mem_cons_self q _)
      · rcases ih hm with h1 | h2
        · exact Or.inl h1
        · exact Or.inr (List.mem_cons_of_mem a h2)

theorem idsOf_replaceFirst : ∀ {qs : List Quote} {sid : String} {s : Quote},
    s.id = sid → idsOf (replaceFirst qs sid s) = idsOf qs := by
  intro qs
  induction qs with
  | nil => intro sid s _; rfl
  | cons a rest ih =>
    intro sid s hs
    simp only [replaceFirst]
    by_cases ha : a.id == sid
    · rw [if_pos ha]
      simp only [idsOf, List.map_cons]
      rw [hs, beq_iff_eq.mp ha]
    · rw [if_neg ha]
      have h2 := ih hs
      simp only [idsOf, List.map_cons] at h2 ⊢
      rw [h2]

theorem replaceFirst_unique {qs : List Quote} {sid : String} {s : Quote}
    (hu : uniqueIds qs) (hs : s.id = sid) :
    ∀ q ∈ replaceFirst qs sid s, q.id = sid → q = s := by
  induction qs with
  | nil => intro q hq _; cases hq
  | cons a rest ih =>
    intro q hq hqid
    have hu' : uniqueIds rest := by
      simp only [uniqueIds, idsOf, List.map_cons, List.nodup_cons] at hu
      exact hu.2
    have hanotin : a.id ∉ idsOf rest := by
      simp only [uniqueIds, idsOf, List.map_cons, List.nodup_cons] at hu
      exact hu.1
    simp only [replaceFirst] at hq
    by_cases ha : a.id == sid
    · rw [if_pos ha] at hq
      rcases List.mem_cons.mp hq with he | hm
      · exact he
      · exfalso
        have : q.id ∈ idsOf rest := List.mem_map_of_mem (fun q => q.id) hm
        rw [hqid, ← beq_iff_eq.mp ha] at this
        exact hanotin this
    · rw [if_neg ha] at hq
      rcases List.mem_cons.mp hq with he | hm
      · subst he
        exact absurd (beq_iff_eq.mpr hqid) ha
      · exact ih hu' q hm hqid

theorem replaceFirst_mem_self : ∀ {qs : List Quote} {sid : String} {s : Quote},
    hasIdB qs sid = true → s ∈ replaceFirst qs sid s := by
  intro qs
  induction qs with
  | nil => intro sid s h; simp [hasIdB] at h
  | cons a rest ih =>
    intro sid s h
    simp only [replaceFirst]
    by_cases ha : a.id == sid
    · rw [if_pos ha]; exact List.mem_cons_self s rest
    · rw [if_neg ha]
      have : hasIdB rest sid = true := by
        simp only [hasIdB, List.any_cons, ha, Bool.false_or] at h
        exact h
      exact List.mem_cons_of_mem a (ih this)

theorem hasIdB_of_idsOf_eq {qs qs' : List Quote} (h : idsOf qs' = idsOf qs)
    {x : String} (hx : hasIdB qs x = true) : hasIdB qs' x = true := by
  rcases hasIdB_iff.mp hx with ⟨q, hq, hqx⟩
  have : x ∈ idsOf qs := by rw [← hqx]; exact List.mem_map_of_mem _ hq
  rw [← h] at this
  rcases List.mem_map.mp this with ⟨q', hq', hq'x⟩
  exact hasIdB_iff.mpr ⟨q', hq', hq'x⟩

theorem hasIdB_append_right {qs : List Quote} {x : String} (s : Quote)
    (hx : hasIdB qs x = true) : hasIdB (qs ++ [s]) x = true := by
  simp only [hasIdB] at hx ⊢
  simp [List.any_append, hx]

/- ### Case lemmas for one merge step -/

theorem mergeStep_none {f : String → Option Quote} {pd : List PendingChange}
    {st : List Quote × List Conflict} {p : String × Quote}
    (h : f p.1 = none) : mergeStep f pd st p = (st.1 ++ [p.2], st.2) := by
  simp [mergeStep, h]

theorem mergeStep_newer {f : String → Option Quote} {pd : List PendingChange}
    {st : List Quote × List Conflict} {p : String × Quote} {l : Quote}
    (h : f p.1 = some l) (hlt : jsLt (tsOf l) (tsOf p.2) = true) :
    mergeStep f pd st p =
      (replaceFirst st.1 l.id p.2,
       if pd.any (fun ch => ch.quote.id == l.id) && !(l.text == p.2.text)
       then st.2 ++ [⟨l, p.2⟩] else st.2) := by
  simp [mergeStep, h, hlt]

theorem mergeStep_older_found {f : String → Option Quote}
    {pd : List PendingChange} {st : List Quote × List Conflict}
    {p : String × Quote} {l : Quote} (h : f p.1 = some l)
    (hlt : jsLt (tsOf l) (tsOf p.2) = false)
    (hgt : jsLt (tsOf p.2) (tsOf l) = true)
    (hfound : hasIdB st.1 l.id = true) :
    mergeStep f pd st p = (replaceFirst st.1 l.id p.2, st.2 ++ [⟨l, p.2⟩]) := by
  simp [mergeStep, h, hlt, hgt, hfound]

theorem mergeStep_older_missing {f : String → Option Quote}
    {pd : List PendingChange} {st : List Quote × List Conflict}
    {p : String × Quote} {l : Quote} (h : f p.1 = some l)
    (hlt : jsLt (tsOf l) (tsOf p.2) = false)
    (hgt : jsLt (tsOf p.2) (tsOf l) = true)
    (hfound : hasIdB st.1 l.id = false) :
    mergeStep f pd st p = st := by
  simp [mergeStep, h, hlt, hgt, hfound]

theorem mergeStep_equal {f : String → Option Quote} {pd : List PendingChange}
    {st : List Quote × List Conflict} {p : String × Quote} {l : Quote}
    (h : f p.1 = some l) (hlt : jsLt (tsOf l) (tsOf p.2) = false)
    (hgt : jsLt (tsOf p.2) (tsOf l) = false) :
    mergeStep f pd st p = st := by
  simp [mergeStep, h, hlt, hgt]

theorem mergeStep_conflicts_shape (f : String → Option Quote)
    (pd : List PendingChange) (st : List Quote × List Conflict)
    (p : String × Quote) :
    (mergeStep f pd st p).2 = st.2 ∨
    ∃ l, f p.1 = some l ∧ (mergeStep f pd st p).2 = st.2 ++ [⟨l, p.2⟩] ∧
      (jsLt (tsOf l) (tsOf p.2) = true ∨ jsLt (tsOf p.2) (tsOf l) = true) := by
  cases hf : f p.1 with
  | none => rw [mergeStep_none hf]; exact Or.inl rfl
  | some l =>
    cases hlt : jsLt (tsOf l) (tsOf p.2) with
    | true =>
      rw [mergeStep_newer hf hlt]
      by_cases hc : pd.any (fun ch => ch.quote.id == l.id) && !(l.text == p.2.text)
      · exact Or.inr ⟨l, rfl, by rw [if_pos hc], Or.inl hlt⟩
      · exact Or.inl (by rw [if_neg hc])
    | false =>
      cases hgt : jsLt (tsOf p.2) (tsOf l) with
      | true =>
        cases hfound : hasIdB st.1 l.id with
        | true =>
          rw [mergeStep_older_found hf hlt hgt hfound]
          exact Or.inr ⟨l, rfl, rfl, Or.inr hgt⟩
        | false =>
          rw [mergeStep_older_missing hf hlt hgt hfound]
          exact Or.inl rfl
      | false =>
        rw [mergeStep_equal hf hlt hgt]
        exact Or.inl rfl

theorem mergeStep_quotes_shape (f : String → Option Quote)
    (pd : List PendingChange) (st : List Quote × List Conflict)
    (p : String × Quote) :
    (mergeStep f pd st p).1 = st.1 ++ [p.2] ∨
    (∃ l, f p.1 = some l ∧
      (mergeStep f pd st p).1 = replaceFirst st.1 l.id p.2) ∨
    (mergeStep f pd st p).1 = st.1 := by
  cases hf : f p.1 with
  | none => rw [mergeStep_none hf]; exact Or.inl rfl
  | some l =>
    cases hlt : jsLt (tsOf l) (tsOf p.2) with
    | true =>
      rw [mergeStep_newer hf hlt]
      exact Or.inr (Or.inl ⟨l, rfl, rfl⟩)
    | false =>
      cases hgt : jsLt (tsOf p.2) (tsOf l) with
      | true =>
        cases hfound : hasIdB st.1 l.id with
        | true =>
          rw [mergeStep_older_found hf hlt hgt hfound]
          exact Or.inr (Or.inl ⟨l, rfl, rfl⟩)
        | false =>
          rw [mergeStep_older_missing hf hlt hgt hfound]
          exact Or.inr (Or.inr rfl)
      | false =>
        rw [mergeStep_equal hf hlt hgt]
        exact Or.inr (Or.inr rfl)

/- ### Fold-level lemmas for the merge loop -/

theorem mergeRun_append (f : String → Option Quote) (pd : List PendingChange) :
    ∀ (es1 es2 : List (String × Quote)) (st : List Quote × List Conflict),
      mergeRun f pd st (es1 ++ es2) = mergeRun f pd (mergeRun f pd st es1) es2 := by
  intro es1
  induction es1 with
  | nil => intro es2 st; rfl
  | cons p rest ih =>
    intro es2 st
    simp only [List.cons_append, mergeRun]
    exact ih es2 (mergeStep f pd st p)

theorem mergeRun_conflicts_mono (f : String → Option Quote)
    (pd : List PendingChange) :
    ∀ (es : List (String × Quote)) (st : List Quote × List Conflict)
      (c : Conflict), c ∈ st.2 → c ∈ (mergeRun f pd st es).2 := by
  intro es
  induction es with
  | nil => intro st c hc; exact hc
  | cons p rest ih =>
    intro st c hc
    simp only [mergeRun]
    apply ih
    rcases mergeStep_conflicts_shape f pd st p with h | ⟨l, _, h, _⟩
    · rw [h]; exact hc
    · rw [h]; exact List.mem_append_left _ hc

theorem mergeRun_hasIdB_mono (f : String → Option Quote)
    (pd : List PendingChange) (Hf : ∀ sid l, f sid = some l → l.id = sid) :
    ∀ (es : List (String × Quote)) (st : List Quote × List Conflict),
      (∀ p ∈ es, (p.2).id = p.1) →
      ∀ x, hasIdB st.1 x = true → hasIdB (mergeRun f pd st es).1 x = true := by
  intro es
  induction es with
  | nil => intro st _ x hx; exact hx
  | cons p rest ih =>
    intro st he x hx
    simp only [mergeRun]
    apply ih _ (fun p' hp' => he p' (List.mem_cons_of_mem p hp'))
    rcases mergeStep_quotes_shape f pd st p with h | ⟨l, hl, h⟩ | h
    · rw [h]; exact hasIdB_append_right _ hx
    · rw [h]
      have hid : (p.2).id = l.id := by
        rw [he p (List.mem_cons_self p rest), Hf p.1 l hl]
      exact hasIdB_of_idsOf_eq (idsOf_replaceFirst hid) hx
    · rw [h]; exact hx

theorem mergeRun_mem_preserved (f : String → Option Quote)
    (pd : List PendingChange) (Hf : ∀ sid l, f sid = some l → l.id = sid) :
    ∀ (es : List (String × Quote)) (st : List Quote × List Conflict)
      (q : Quote), q ∈ st.1 →
      (∀ p ∈ es, q.id ≠ p.1 ∨ ∃ l, f p.1 = some l ∧
        jsLt (tsOf l) (tsOf p.2) = false ∧ jsLt (tsOf p.2) (tsOf l) = false) →
      q ∈ (mergeRun f pd st es).1 := by
  intro es
  induction es with
  | nil => intro st q hq _; exact hq
  | cons p rest ih =>
    intro st q hq hcond
    simp only [mergeRun]
    apply ih _ q _ (fun p' hp' => hcond p' (List.mem_cons_of_mem p hp'))
    rcases hcond p (List.mem_cons_self p rest) with hne | ⟨l, hl, hlt, hgt⟩
    · rcases mergeStep_quotes_shape f pd st p with h | ⟨l, hl, h⟩ | h
      · rw [h]; exact List.mem_append_left _ hq
      · rw [h]
        have : l.id = p.1 := Hf p.1 l hl
        exact replaceFirst_mem_of_ne hq (by rw [this]; exact hne)
      · rw [h]; exact hq
    · rw [mergeStep_equal hl hlt hgt]
      exact hq

theorem mergeRun_pred_preserved (f : String → Option Quote)
    (pd : List PendingChange) (Hf : ∀ sid l, f sid = some l → l.id = sid)
    (x : String) (Q : Quote → Prop) :
    ∀ (es : List (String × Quote)) (st : List Quote × List Conflict),
      (∀ p ∈ es, p.1 ≠ x) → (∀ p ∈ es, (p.2).id = p.1) →
      (∀ q ∈ st.1, q.id = x → Q q) →
      ∀ q ∈ (mergeRun f pd st es).1, q.id = x → Q q := by
  intro es
  induction es with
  | nil => intro st _ _ hst q hq hqx; exact hst q hq hqx
  | cons p rest ih =>
    intro st hk he hst
    simp only [mergeRun]
    apply ih _ (fun p' hp' => hk p' (List.mem_cons_of_mem p hp'))
      (fun p' hp' => he p' (List.mem_cons_of_mem p hp'))
    intro q hq hqx
    have hpx : p.1 ≠ x := hk p (List.mem_cons_self p rest)
    have hpv : (p.2).id = p.1 := he p (List.mem_cons_self p rest)
    rcases mergeStep_quotes_shape f pd st p with h | ⟨l, hl, h⟩ | h
    · rw [h] at hq
      rcases List.mem_append.mp hq with hm | hm
      · exact hst q hm hqx
      · rcases List.mem_singleton.mp hm with rfl
        exact absurd (hpv.symm.trans hqx) hpx
    · rw [h] at hq
      rcases replaceFirst_mem_rev hq with rfl | hm
      · exact absurd (hpv.symm.trans hqx) hpx
      · exact hst q hm hqx
    · rw [h] at hq
      exact hst q hq hqx

/-- Main invariant of the merge loop: starting from a state whose quotes have
pairwise-distinct ids, in which every quote with a still-unprocessed id is an
original quote of the `localById` snapshot source `qs0`, the loop keeps ids
unique; and after processing, every quote carrying the id of a processed
entry is either that entry's server item, or an original local quote whose
effective timestamp equals the server item's. -/
theorem mergeRun_main (f : String → Option Quote) (pd : List PendingChange)
    (qs0 : List Quote)
    (Hf1 : ∀ sid l, f sid = some l → l.id = sid ∧ l ∈ qs0)
    (Hf2 : ∀ sid, f sid = none → ∀ q ∈ qs0, q.id ≠ sid)
    (Hf3 : ∀ sid l, f sid = some l → ∀ q ∈ qs0, q.id = sid → q = l) :
    ∀ (es : List (String × Quote)) (st : List Quote × List Conflict),
      (es.map Prod.fst).Nodup →
      (∀ p ∈ es, (p.2).id = p.1) →
      uniqueIds st.1 →
      (∀ q ∈ st.1, q ∈ qs0 ∨ q.id ∉ es.map Prod.fst) →
      (∀ sid l, f sid = some l → hasIdB st.1 sid = true) →
      uniqueIds (mergeRun f pd st es).1 ∧
      (∀ p ∈ es, ∀ q ∈ (mergeRun f pd st es).1, q.id = p.1 →
        q = p.2 ∨ (q ∈ qs0 ∧ tsOf q = tsOf p.2)) := by
  intro es
  induction es with
  | nil =>
    intro st _ _ hu _ _
    exact ⟨hu, fun p hp => absurd hp (List.not_mem_nil p)⟩
  | cons p rest ih =>
    intro st hkeys he hu horig hfind
    have hkey_rest : (rest.map Prod.fst).Nodup := by
      simp only [List.map_cons, List.nodup_cons] at hkeys
      exact hkeys.2
    have hkey_head : p.1 ∉ rest.map Prod.fst := by
      simp only [List.map_cons, List.nodup_cons] at hkeys
      exact hkeys.1
    have he_rest : ∀ p' ∈ rest, (p'.2).id = p'.1 :=
      fun p' hp' => he p' (List.mem_cons_of_mem p hp')
    have he_head : (p.2).id = p.1 := he p (List.mem_cons_self p rest)
    -- establish the post-step state facts, then close with the IH
    have main :
        ∀ st' : List Quote × List Conflict,
        mergeStep f pd st p = st' →
        uniqueIds st'.1 →
        (∀ q ∈ st'.1, q ∈ qs0 ∨ q.id ∉ rest.map Prod.fst) →
        (∀ sid l, f sid = some l → hasIdB st'.1 sid = true) →
        (∀ q ∈ st'.1, q.id = p.1 → q = p.2 ∨ (q ∈ qs0 ∧ tsOf q = tsOf p.2)) →
        uniqueIds (mergeRun f pd st (p :: rest)).1 ∧
        (∀ p' ∈ p :: rest, ∀ q ∈ (mergeRun f pd st (p :: rest)).1,
          q.id = p'.1 → q = p'.2 ∨ (q ∈ qs0 ∧ tsOf q = tsOf p'.2)) := by
      intro st' hst' hu' horig' hfind' hP
      have hrun : mergeRun f pd st (p :: rest) = mergeRun f pd st' rest := by
        simp only [mergeRun, hst']
      rcases ih st' hkey_rest he_rest hu' horig' hfind' with ⟨ihu, ihP⟩
      rw [hrun]
      refine ⟨ihu, ?_⟩
      intro p' hp' q hq hqid
      rcases List.mem_cons.mp hp' with rfl | hmem
      · have hkne : ∀ pr ∈ rest, pr.1 ≠ p'.1 := by
          intro pr hpr hceq
          exact hkey_head (hceq ▸ List.mem_map_of_mem Prod.fst hpr)
        exact mergeRun_pred_preserved f pd (fun sid l hl => (Hf1 sid l hl).1)
          p'.1 (fun q => q = p'.2 ∨ (q ∈ qs0 ∧ tsOf q = tsOf p'.2))
          rest st' hkne he_rest hP q hq hqid
      · exact ihP p' hmem q hq hqid
    cases hf : f p.1 with
    | none =>
      have hstep := @mergeStep_none f pd st p hf
      have hnotin : p.1 ∉ idsOf st.1 := by
        intro hc
        rcases List.mem_map.mp hc with ⟨q, hq, hqid⟩
        rcases horig q hq with hin0 | hnk
        · exact Hf2 p.1 hf q hin0 hqid
        · exact hnk (by
            rw [hqid]
            simp only [List.map_cons]
            exact List.mem_cons_self p.1 _)
      apply main _ hstep
      · show uniqueIds (st.1 ++ [p.2])
        simp only [uniqueIds, idsOf, List.map_append, List.map_cons,
          List.map_nil, List.nodup_append]
        refine ⟨hu, List.nodup_singleton _, ?_⟩
        intro x hx hx2
        rcases List.mem_singleton.mp hx2 with rfl
        rw [he_head] at hx
        exact hnotin hx
      · intro q hq
        rcases List.mem_append.mp hq with hm | hm
        · rcases horig q hm with h0 | hnk
          · exact Or.inl h0
          · refine Or.inr ?_
            intro hc
            exact hnk (by simp only [List.map_cons]; exact List.mem_cons_of_mem _ hc)
        · rcases List.mem_singleton.mp hm with rfl
          refine Or.inr ?_
          rw [he_head]
          exact hkey_head
      · intro sid l hl
        exact hasIdB_append_right _ (hfind sid l hl)
      · intro q hq hqid
        rcases List.mem_append.mp hq with hm | hm
        · exfalso
          exact hnotin (hqid ▸ List.mem_map_of_mem (fun q => q.id) hm)
        · rcases List.mem_singleton.mp hm with rfl
          exact Or.inl rfl
    | some l =>
      have hl1 := (Hf1 p.1 l hf).1
      have hl0 := (Hf1 p.1 l hf).2
      have hfound : hasIdB st.1 l.id = true := by
        rw [hl1]; exact hfind p.1 l hf
      have hidp2 : (p.2).id = l.id := by rw [he_head, hl1]
      -- facts shared by the two replacing branches
      have hrep_all :
          ∀ st2 : List Quote × List Conflict,
          st2.1 = replaceFirst st.1 l.id p.2 →
          uniqueIds st2.1 ∧
          (∀ q ∈ st2.1, q ∈ qs0 ∨ q.id ∉ rest.map Prod.fst) ∧
          (∀ sid l', f sid = some l' → hasIdB st2.1 sid = true) ∧
          (∀ q ∈ st2.1, q.id = p.1 → q = p.2 ∨ (q ∈ qs0 ∧ tsOf q = tsOf p.2)) := by
        intro st2 h1
        have hids : idsOf st2.1 = idsOf st.1 := by
          rw [h1]; exact idsOf_replaceFirst hidp2
        refine ⟨?_, ?_, ?_, ?_⟩
        · show (idsOf st2.1).Nodup
          rw [hids]; exact hu
        · intro q hq
          rw [h1] at hq
          rcases replaceFirst_mem_rev hq with rfl | hm
          · refine Or.inr ?_
            rw [hidp2, hl1]
            exact hkey_head
          · rcases horig q hm with h0 | hnk
            · exact Or.inl h0
            · refine Or.inr ?_
              intro hc
              exact hnk (by simp only [List.map_cons]; exact List.mem_cons_of_mem _ hc)
        · intro sid l' hl'
          exact hasIdB_of_idsOf_eq hids (hfind sid l' hl')
        · intro q hq hqid
          rw [h1] at hq
          refine Or.inl ?_
          exact replaceFirst_unique hu hidp2 q hq (by rw [hqid, hl1])
      cases hlt : jsLt (tsOf l) (tsOf p.2) with
      | true =>
        have hstep := @mergeStep_newer f pd st p l hf hlt
        have hq1 : (mergeStep f pd st p).1 = replaceFirst st.1 l.id p.2 := by
          rw [hstep]
        rcases hrep_all (mergeStep f pd st p) hq1 with ⟨a, b, c, d⟩
        exact main _ rfl a b c d
      | false =>
        cases hgt : jsLt (tsOf p.2) (tsOf l) with
        | true =>
          have hstep := @mergeStep_older_found f pd st p l hf hlt hgt hfound
          have hq1 : (mergeStep f pd st p).1 = replaceFirst st.1 l.id p.2 := by
            rw [hstep]
          rcases hrep_all (mergeStep f pd st p) hq1 with ⟨a, b, c, d⟩
          exact main _ rfl a b c d
        | false =>
          have hstep := @mergeStep_equal f pd st p l hf hlt hgt
          apply main st hstep hu
          · intro q hq
            rcases horig q hq with h0 | hnk
            · exact Or.inl h0
            · refine Or.inr ?_
              intro hc
              exact hnk (by simp only [List.map_cons]; exact List.mem_cons_of_mem _ hc)
          · exact hfind
          · intro q hq hqid
            rcases horig q hq with h0 | hnk
            · have hql : q = l := Hf3 p.1 l hf q h0 hqid
              refine Or.inr ⟨h0, ?_⟩
              rw [hql]
              exact jsLt_eq_of_not_lt hlt hgt
            · exact absurd (by rw [hqid]; simp only [List.map_cons]; exact List.mem_cons_self p.1 _) hnk

/- ### Lemmas on the Map entry construction -/

theorem foldl_setEntry_of_nodup :
    ∀ (ps acc : List (String × Quote)),
      ((acc ++ ps).map Prod.fst).Nodup →
      ps.foldl (fun a p => setEntry a p.1 p.2) acc = acc ++ ps
  | [], acc, _ => by simp
  | p :: rest, acc, h => by
    obtain ⟨k, v⟩ := p
    have hknot : k ∉ acc.map Prod.fst := by
      intro hc
      simp only [List.map_append, List.map_cons] at h
      rcases (List.nodup_append.mp h) with ⟨_, _, hdisj⟩
      exact hdisj hc (List.mem_cons_self k _)
    have hany : acc.any (fun q => q.1 == k) = false := by
      cases ha : acc.any (fun q => q.1 == k) with
      | false => rfl
      | true =>
        exfalso
        rcases List.any_eq_true.mp ha with ⟨q, hq, hqe⟩
        exact hknot (beq_iff_eq.mp hqe ▸ List.mem_map_of_mem Prod.fst hq)
    have hset : setEntry acc k v = acc ++ [(k, v)] := by
      simp [setEntry, hany]
    simp only [List.foldl_cons]
    rw [hset]
    have hassoc : acc ++ (k, v) :: rest = (acc ++ [(k, v)]) ++ rest := by
      simp
    rw [hassoc] at h ⊢
    exact foldl_setEntry_of_nodup rest (acc ++ [(k, v)]) h

theorem mapEntries_of_nodup {ps : List (String × Quote)}
    (h : (ps.map Prod.fst).Nodup) : mapEntries ps = ps := by
  have := foldl_setEntry_of_nodup ps [] (by simpa using h)
  simpa [mapEntries] using this

theorem setEntry_mem {acc : List (String × Quote)} {k : String} {v : Quote}
    {e : String × Quote} (h : e ∈ setEntry acc k v) : e ∈ acc ∨ e = (k, v) := by
  simp only [setEntry] at h
  by_cases ha : acc.any (fun q => q.1 == k) = true
  · rw [if_pos ha] at h
    rcases List.mem_map.mp h with ⟨q, hq, hqe⟩
    by_cases hqk : q.1 == k
    · rw [if_pos hqk] at hqe
      exact Or.inr hqe.symm
    · rw [if_neg hqk] at hqe
      exact Or.inl (hqe ▸ hq)
  · rw [if_neg ha] at h
    rcases List.mem_append.mp h with hm | hm
    · exact Or.inl hm
    · exact Or.inr (List.mem_singleton.mp hm)

theorem foldl_setEntry_mem :
    ∀ (ps acc : List (String × Quote)) (e : String × Quote),
      e ∈ ps.foldl (fun a p => setEntry a p.1 p.2) acc → e ∈ acc ∨ e ∈ ps
  | [], _, _, h => Or.inl h
  | p :: rest, acc, e, h => by
    simp only [List.foldl_cons] at h
    rcases foldl_setEntry_mem rest (setEntry acc p.1 p.2) e h with hm | hm
    · rcases setEntry_mem hm with hm2 | hm2
      · exact Or.inl hm2
      · refine Or.inr ?_
        rw [hm2]
        exact List.mem_cons_self _ _
    · exact Or.inr (List.mem_cons_of_mem p hm)

theorem mapEntries_mem {ps : List (String × Quote)} {e : String × Quote}
    (h : e ∈ mapEntries ps) : e ∈ ps := by
  rcases foldl_setEntry_mem ps [] e h with hm | hm
  · cases hm
  · exact hm

theorem entriesOf_mem {serverQuotes : List Quote} {p : String × Quote}
    (h : p ∈ entriesOf serverQuotes) : ∃ s ∈ serverQuotes, p = (s.id, s) := by
  have := mapEntries_mem h
  rcases List.mem_map.mp this with ⟨s, hs, hse⟩
  exact ⟨s, hs, hse.symm⟩

theorem entriesOf_values_ok (serverQuotes : List Quote) :
    ∀ p ∈ entriesOf serverQuotes, (p.2).id = p.1 := by
  intro p hp
  rcases entriesOf_mem hp with ⟨s, _, rfl⟩
  rfl

theorem entriesOf_of_nodup {serverQuotes : List Quote}
    (h : (serverQuotes.map (fun s => s.id)).Nodup) :
    entriesOf serverQuotes = serverQuotes.map (fun s => (s.id, s)) := by
  apply mapEntries_of_nodup
  have : (serverQuotes.map (fun s => (s.id, s))).map Prod.fst
      = serverQuotes.map (fun s => s.id) := by
    rw [List.map_map]
    rfl
  rw [this]
  exact h

/- ### Single-step monotonicity and conflict firing -/

theorem mergeStep_hasIdB_mono {f : String → Option Quote}
    {pd : List PendingChange} {st : List Quote × List Conflict}
    {p : String × Quote} (Hf : ∀ sid l, f sid = some l → l.id = sid)
    (he : (p.2).id = p.1) :
    ∀ x, hasIdB st.1 x = true → hasIdB (mergeStep f pd st p).1 x = true := by
  intro x hx
  rcases mergeStep_quotes_shape f pd st p with h | ⟨l, hl, h⟩ | h
  · rw [h]; exact hasIdB_append_right _ hx
  · rw [h]
    have hid : (p.2).id = l.id := by rw [he, Hf p.1 l hl]
    exact hasIdB_of_idsOf_eq (idsOf_replaceFirst hid) hx
  · rw [h]; exact hx

theorem mergeRun_conflict_newer (f : String → Option Quote)
    (pd : List PendingChange) :
    ∀ (es : List (String × Quote)) (st : List Quote × List Conflict)
      (p : String × Quote) (l : Quote),
      p ∈ es → f p.1 = some l →
      jsLt (tsOf l) (tsOf p.2) = true →
      pd.any (fun ch => ch.quote.id == l.id) = true →
      (l.text == p.2.text) = false →
      (⟨l, p.2⟩ : Conflict) ∈ (mergeRun f pd st es).2 := by
  intro es
  induction es with
  | nil => intro st p l hp; cases hp
  | cons hd rest ih =>
    intro st p l hp hf hlt hpend htext
    simp only [mergeRun]
    rcases List.mem_cons.mp hp with rfl | hmem
    · have hstep := @mergeStep_newer f pd st p l hf hlt
      have hcond : (pd.any (fun ch => ch.quote.id == l.id)
          && !(l.text == p.2.text)) = true := by
        rw [hpend, htext]
        rfl
      apply mergeRun_conflicts_mono
      rw [hstep]
      simp only [hcond, if_true]
      exact List.mem_append_right _ (List.mem_singleton.mpr rfl)
    · exact ih (mergeStep f pd st hd) p l hmem hf hlt hpend htext

theorem mergeRun_conflict_older (f : String → Option Quote)
    (pd : List PendingChange) (Hf : ∀ sid l, f sid = some l → l.id = sid) :
    ∀ (es : List (String × Quote)) (st : List Quote × List Conflict)
      (p : String × Quote) (l : Quote),
      p ∈ es → (∀ p' ∈ es, (p'.2).id = p'.1) → f p.1 = some l →
      jsLt (tsOf p.2) (tsOf l) = true →
      hasIdB st.1 l.id = true →
      (⟨l, p.2⟩ : Conflict) ∈ (mergeRun f pd st es).2 := by
  intro es
  induction es with
  | nil => intro st p l hp; cases hp
  | cons hd rest ih =>
    intro st p l hp he hf hgt hhas
    simp only [mergeRun]
    rcases List.mem_cons.mp hp with rfl | hmem
    · have hlt : jsLt (tsOf l) (tsOf p.2) = false := jsLt_asymm hgt
      have hstep := @mergeStep_older_found f pd st p l hf hlt hgt hhas
      apply mergeRun_conflicts_mono
      rw [hstep]
      exact List.mem_append_right _ (List.mem_singleton.mpr rfl)
    · exact ih (mergeStep f pd st hd) p l hmem
        (fun p' hp' => he p' (List.mem_cons_of_mem hd hp')) hf hgt
        (mergeStep_hasIdB_mono Hf (he hd (List.mem_cons_self hd rest)) l.id hhas)

/- ### Conflict counting -/

theorem mergeRun_countP_avoid (f : String → Option Quote)
    (pd : List PendingChange) :
    ∀ (es : List (String × Quote)) (st : List Quote × List Conflict)
      (sid : String), (∀ p ∈ es, (p.2).id ≠ sid) →
      ((mergeRun f pd st es).2.countP (fun c => c.server.id == sid)) =
        st.2.countP (fun c => c.server.id == sid) := by
  intro es
  induction es with
  | nil => intro st sid _; rfl
  | cons p rest ih =>
    intro st sid hne
    simp only [mergeRun]
    rw [ih (mergeStep f pd st p) sid
      (fun p' hp' => hne p' (List.mem_cons_of_mem p hp'))]
    rcases mergeStep_conflicts_shape f pd st p with h | ⟨l, _, h, _⟩
    · rw [h]
    · rw [h]
      have : ((⟨l, p.2⟩ : Conflict).server.id == sid) = false :=
        beq_eq_false_iff_ne.mpr (hne p (List.mem_cons_self p rest))
      simp [List.countP_append, List.countP_cons, this]

/- ### Identity run (used for idempotence) -/

theorem mergeRun_identity (f : String → Option Quote)
    (pd : List PendingChange) :
    ∀ (es : List (String × Quote)) (st : List Quote × List Conflict),
      (∀ p ∈ es, ∃ l, f p.1 = some l ∧
        jsLt (tsOf l) (tsOf p.2) = false ∧ jsLt (tsOf p.2) (tsOf l) = false) →
      mergeRun f pd st es = st := by
  intro es
  induction es with
  | nil => intro st _; rfl
  | cons p rest ih =>
    intro st hall
    rcases hall p (List.mem_cons_self p rest) with ⟨l, hf, hlt, hgt⟩
    simp only [mergeRun]
    rw [mergeStep_equal hf hlt hgt]
    exact ih st (fun p' hp' => hall p' (List.mem_cons_of_mem p hp'))

/- ### Outbox flush (`pushLocalChanges`) -/

/-- A single request of the Remote Gateway: `POST /quotes` with the payload
`{text, category, updatedAt}` or `PUT /quotes/{id}` with the full record. -/
inductive RemoteReq where
  | post (text category : String) (updatedAt : Option String)
  | put (id : String) (q : Quote)
deriving Repr, DecidableEq

/-- Embeds `quotes.map(q => q.id === sid ? newQ : q)` — replace every quote
whose id equals `sid`. -/
def replaceById (qs : List Quote) (sid : String) (newQ : Quote) : List Quote :=
  qs.map (fun q => if q.id == sid then newQ else q)

/-- Embeds `String(id).startsWith("local-")`. -/
def isLocalId (id : String) : Bool :=
  "local-".data.isPrefixOf id.data

/-- The request one `pendingLocalChanges` entry causes, `none` when the `op`
matches neither branch (in which case the loop body does nothing). -/
def reqOf (ch : PendingChange) : Option RemoteReq :=
  if ch.op == "create" then
    some (.post ch.quote.text ch.quote.category ch.quote.updatedAt)
  else if ch.op == "update" then
    if ch.quote.id != "" && !(isLocalId ch.quote.id) then
      some (.put ch.quote.id ch.quote)
    else
      some (.post ch.quote.text ch.quote.category ch.quote.updatedAt)
  else none

/-- One iteration of the `for (const change of pendingLocalChanges)` loop of
`pushLocalChanges`.  `r` answers a request with the server's JSON body, or
`none` for a thrown transport error / non-ok status.  Returns the new
`quotes` and whether the change was appended to `succeeded`. -/
def pushOne (r : RemoteReq → Option Quote) (qs : List Quote)
    (ch : PendingChange) : List Quote × Bool :=
  if ch.op == "create" then
    match r (.post ch.quote.text ch.quote.category ch.quote.updatedAt) with
    | some created => (replaceById qs ch.quote.id created, true)
    | none => (qs, false)
  else if ch.op == "update" then
    if ch.quote.id != "" && !(isLocalId ch.quote.id) then
      match r (.put ch.quote.id ch.quote) with
      | some updated => (replaceById qs ch.quote.id updated, true)
      | none => (qs, false)
    else
      match r (.post ch.quote.text ch.quote.category ch.quote.updatedAt) with
      | some created => (replaceById qs ch.quote.id created, true)
      | none => (qs, false)
  else (qs, false)

/-- Whether the attempt for `ch` lands in `succeeded`. -/
def attemptOk (r : RemoteReq → Option Quote) (ch : PendingChange) : Bool :=
  match reqOf ch with
  | some req => (r req).isSome
  | none => false

/-- The flush loop: `resp i` answers the requests of the `i`-th change.  The
accumulated `rem` list realises the final
`pendingLocalChanges.filter(c => !succeeded.includes(c))` (per-reference in
JavaScript, hence per-occurrence here). -/
def pushAux (resp : Nat → RemoteReq → Option Quote) :
    Nat → List Quote → List PendingChange → List PendingChange →
    List Quote × List PendingChange
  | _, qs, rem, [] => (qs, rem)
  | i, qs, rem, ch :: rest =>
    pushAux resp (i + 1) (pushOne (resp i) qs ch).1
      (if (pushOne (resp i) qs ch).2 then rem else rem ++ [ch]) rest

/-- Embeds `pushLocalChanges()`: reads the globals, returns the new `quotes`
and the new `pendingLocalChanges` (the entries whose push attempt failed). -/
def pushLocalChanges (resp : Nat → RemoteReq → Option Quote)
    (qs0 : List Quote) (pending : List PendingChange) :
    List Quote × List PendingChange :=
  pushAux resp 0 qs0 [] pending

/- ### Local add / edit (`addLocalQuote`, `editLocalQuote`) -/

/-- Embeds `idForLocal()`, with `Date.now()` and
`Math.floor(Math.random()*1000)` as parameters. -/
def idForLocal (timeMs rand : Nat) : String :=
  "local-" ++ toString timeMs ++ "-" ++ toString rand

/-- Embeds `addLocalQuote(text, category)` acting on the global state; `now`
is `nowIso()`.  No validation is performed on `text` or `category`. -/
def addLocalQuote (qs : List Quote) (pending : List PendingChange)
    (text category : String) (timeMs rand : Nat) (now : String) :
    List Quote × List PendingChange :=
  let newQ : Quote := ⟨idForLocal timeMs rand, text, category, some now⟩
  (qs ++ [newQ], pending ++ [⟨"create", newQ⟩])

/- ### Conflict banner actions (`showConflictBanner` handlers) -/

/-- Embeds the `Restore Local` click handler: find the quote holding the
conflicted id, overwrite it with the preserved local snapshot under a fresh
`nowIso()` timestamp, and queue an `update` PendingChange for it. -/
def resolveRestoreLocal (qs : List Quote) (pending : List PendingChange)
    (c : Conflict) (now : String) : List Quote × List PendingChange :=
  if hasIdB qs c.localQ.id then
    let restored : Quote := { c.localQ with updatedAt := some now }
    (replaceFirst qs c.localQ.id restored, pending ++ [⟨"update", restored⟩])
  else (qs, pending)

/-- Models the `Keep Server` click handler, which only removes the banner
item and alerts: `quotes` and `pendingLocalChanges` are untouched. -/
def resolveKeepServer (qs : List Quote) (pending : List PendingChange) :
    List Quote × List PendingChange :=
  (qs, pending)

/- ### The category-filtering variant (`src/unnamed/part_000`) -/

/-- The quote shape of the filtering variant: `{ text, category }`. -/
structure SimpleQuote where
  text : String
  category : String
deriving Repr, DecidableEq

/-- Strips leading whitespace characters from a char list. -/
def dropLeadingWs : List Char → List Char
  | [] => []
  | c :: cs => if c.isWhitespace then dropLeadingWs cs else c :: cs

/-- Embeds `String.prototype.trim`: strip leading and trailing whitespace. -/
def jsTrim (s : String) : String :=
  ⟨(dropLeadingWs ((dropLeadingWs s.data).reverse)).reverse⟩

/-- Embeds `addQuote()` of the filtering variant, with the two input-field
values as parameters (the DOM reads are elided): trim both, reject when
either is empty (alert and return, collection untouched), else append. -/
def addQuote (qs : List SimpleQuote) (textRaw catRaw : String) :
    List SimpleQuote :=
  let text := jsTrim textRaw
  let cat := jsTrim catRaw
  if text == "" || cat == "" then qs
  else qs ++ [⟨text, cat⟩]

/- ### Lemmas on the outbox flush -/

theorem pushOne_snd (r : RemoteReq → Option Quote) (qs : List Quote)
    (ch : PendingChange) : (pushOne r qs ch).2 = attemptOk r ch := by
  by_cases hc : ch.op == "create"
  · simp only [pushOne, attemptOk, reqOf, if_pos hc]
    cases r (.post ch.quote.text ch.quote.category ch.quote.updatedAt) <;> rfl
  · by_cases hu : ch.op == "update"
    · by_cases hid : ch.quote.id != "" && !(isLocalId ch.quote.id)
      · simp only [pushOne, attemptOk, reqOf, if_neg hc, if_pos hu, if_pos hid]
        cases r (.put ch.quote.id ch.quote) <;> rfl
      · simp only [pushOne, attemptOk, reqOf, if_neg hc, if_pos hu, if_neg hid]
        cases r (.post ch.quote.text ch.quote.category ch.quote.updatedAt) <;> rfl
    · simp only [pushOne, attemptOk, reqOf, if_neg hc, if_neg hu]

theorem pushOne_fail {r : RemoteReq → Option Quote} {qs : List Quote}
    {ch : PendingChange} (h : (pushOne r qs ch).2 = false) :
    (pushOne r qs ch).1 = qs := by
  by_cases hc : ch.op == "create"
  · simp only [pushOne, if_pos hc] at h ⊢
    cases hr : r (.post ch.quote.text ch.quote.category ch.quote.updatedAt) with
    | none => simp [hr]
    | some created => rw [hr] at h; simp at h
  · by_cases hu : ch.op == "update"
    · by_cases hid : ch.quote.id != "" && !(isLocalId ch.quote.id)
      · simp only [pushOne, if_neg hc, if_pos hu, if_pos hid] at h ⊢
        cases hr : r (.put ch.quote.id ch.quote) with
        | none => simp [hr]
        | some updated => rw [hr] at h; simp at h
      · simp only [pushOne, if_neg hc, if_pos hu, if_neg hid] at h ⊢
        cases hr : r (.post ch.quote.text ch.quote.category ch.quote.updatedAt) with
        | none => simp [hr]
        | some created => rw [hr] at h; simp at h
    · simp only [pushOne, if_neg hc, if_neg hu]

theorem pushAux_rem_mono (resp : Nat → RemoteReq → Option Quote) :
    ∀ (rest : List PendingChange) (i : Nat) (qs : List Quote)
      (rem : List PendingChange) (ch : PendingChange),
      ch ∈ rem → ch ∈ (pushAux resp i qs rem rest).2 := by
  intro rest
  induction rest with
  | nil => intro i qs rem ch hch; exact hch
  | cons hd tl ih =>
    intro i qs rem ch hch
    simp only [pushAux]
    apply ih
    by_cases hok : (pushOne (resp i) qs hd).2
    · rw [if_pos hok]; exact hch
    · rw [if_neg hok]; exact List.mem_append_left _ hch

theorem pushAux_keeps_failed (resp : Nat → RemoteReq → Option Quote) :
    ∀ (rest : List PendingChange) (i : Nat) (qs : List Quote)
      (rem : List PendingChange) (j : Nat) (ch : PendingChange),
      rest.get? j = some ch → attemptOk (resp (i + j)) ch = false →
      ch ∈ (pushAux resp i qs rem rest).2 := by
  intro rest
  induction rest with
  | nil => intro i qs rem j ch hj; simp at hj
  | cons hd tl ih =>
    intro i qs rem j ch hj hfail
    cases j with
    | zero =>
      simp only [List.get?] at hj
      have heq : hd = ch := by injection hj
      subst heq
      simp only [pushAux]
      have hko : (pushOne (resp i) qs hd).2 = false := by
        rw [pushOne_snd]
        simpa using hfail
      rw [if_neg (by rw [hko]; exact Bool.false_ne_true)]
      exact pushAux_rem_mono resp tl (i + 1) _ _ hd
        (List.mem_append_right _ (List.mem_singleton.mpr rfl))
    | succ j' =>
      simp only [List.get?] at hj
      simp only [pushAux]
      apply ih (i + 1) _ _ j' ch hj
      have : i + 1 + j' = i + (j' + 1) := by omega
      rw [this]
      exact hfail

theorem pushAux_all_fail (resp : Nat → RemoteReq → Option Quote) :
    ∀ (rest : List PendingChange) (i : Nat) (qs : List Quote)
      (rem : List PendingChange),
      (∀ k, ∀ ch ∈ rest, attemptOk (resp k) ch = false) →
      pushAux resp i qs rem rest = (qs, rem ++ rest) := by
  intro rest
  induction rest with
  | nil => intro i qs rem _; simp [pushAux]
  | cons hd tl ih =>
    intro i qs rem hall
    simp only [pushAux]
    have hko : (pushOne (resp i) qs hd).2 = false := by
      rw [pushOne_snd]
      exact hall i hd (List.mem_cons_self hd tl)
    rw [if_neg (by rw [hko]; exact Bool.false_ne_true)]
    rw [pushOne_fail hko]
    rw [ih (i + 1) qs (rem ++ [hd])
      (fun k ch hch => hall k ch (List.mem_cons_of_mem hd hch))]
    simp

theorem pushAux_drops_succeeded (resp : Nat → RemoteReq → Option Quote)
    (ch : PendingChange) (hok : ∀ k, attemptOk (resp k) ch = true) :
    ∀ (rest : List PendingChange) (i : Nat) (qs : List Quote)
      (rem : List PendingChange),
      ch ∉ rem → ch ∉ (pushAux resp i qs rem rest).2 := by
  intro rest
  induction rest with
  | nil => intro i qs rem hch; exact hch
  | cons hd tl ih =>
    intro i qs rem hch
    simp only [pushAux]
    apply ih
    by_cases hok2 : (pushOne (resp i) qs hd).2
    · rw [if_pos hok2]; exact hch
    · rw [if_neg hok2]
      intro hc
      rcases List.mem_append.mp hc with hm | hm
      · exact hch hm
      · rcases List.mem_singleton.mp hm with rfl
        rw [pushOne_snd, hok i] at hok2
        exact hok2 rfl

/- ### Instantiating the merge lemmas at the real localById snapshot -/

theorem byIdLast_Hf1 (qs0 : List Quote) :
    ∀ sid l, byIdLast qs0 sid = some l → l.id = sid ∧ l ∈ qs0 :=
  fun _ _ h => ⟨(byIdLast_some h).2, (byIdLast_some h).1⟩

theorem byIdLast_Hf3 {qs0 : List Quote} (hu : uniqueIds qs0) :
    ∀ sid l, byIdLast qs0 sid = some l → ∀ q ∈ qs0, q.id = sid → q = l := by
  intro sid l h q hq hqid
  rcases byIdLast_some h with ⟨hl, hlid⟩
  exact unique_elim hu hq hl (by rw [hqid, hlid])

theorem merge_main_facts (qs0 : List Quote) (pending : List PendingChange)
    (server : List Quote) (hu : uniqueIds qs0)
    (hsn : (server.map (fun q => q.id)).Nodup) :
    uniqueIds (mergeServerIntoLocal qs0 pending server).1 ∧
    (∀ s ∈ server, ∀ q ∈ (mergeServerIntoLocal qs0 pending server).1,
      q.id = s.id → q = s ∨ (q ∈ qs0 ∧ tsOf q = tsOf s)) := by
  have hent : entriesOf server = server.map (fun s => (s.id, s)) :=
    entriesOf_of_nodup hsn
  have hkeys : ((server.map (fun s => (s.id, s))).map Prod.fst).Nodup := by
    rw [List.map_map]
    exact hsn
  have hvals : ∀ p ∈ server.map (fun s => (s.id, s)), (p.2).id = p.1 := by
    intro p hp
    rcases List.mem_map.mp hp with ⟨s, _, rfl⟩
    rfl
  have hfind : ∀ sid l, byIdLast qs0 sid = some l → hasIdB qs0 sid = true := by
    intro sid l h
    rcases byIdLast_some h with ⟨hl, hlid⟩
    exact hasIdB_iff.mpr ⟨l, hl, hlid⟩
  have horig : ∀ q ∈ qs0, q ∈ qs0 ∨
      q.id ∉ (server.map (fun s => (s.id, s))).map Prod.fst :=
    fun q hq => Or.inl hq
  have hmain := mergeRun_main (byIdLast qs0) pending qs0
    (byIdLast_Hf1 qs0) (fun sid h => byIdLast_none h) (byIdLast_Hf3 hu)
    (server.map (fun s => (s.id, s))) (qs0, []) hkeys hvals hu horig hfind
  rw [mergeServerIntoLocal, hent]
  refine ⟨hmain.1, ?_⟩
  intro s hs q hq hqid
  exact hmain.2 (s.id, s) (List.mem_map_of_mem _ hs) q hq hqid

theorem merge_hasIdB (qs0 : List Quote) (pending : List PendingChange)
    (server : List Quote) :
    ∀ x, hasIdB qs0 x = true →
      hasIdB (mergeServerIntoLocal qs0 pending server).1 x = true := by
  intro x hx
  rw [mergeServerIntoLocal]
  exact mergeRun_hasIdB_mono (byIdLast qs0) pending
    (fun sid l h => (byIdLast_some h).2) (entriesOf server) (qs0, [])
    (entriesOf_values_ok server) x hx

/-- Core of the local-strictly-newer branch of the merge: the remote item is
installed anyway and a conflict is recorded.  Shared by several claims. -/
theorem merge_local_newer_core
    (qs0 : List Quote) (pending : List PendingChange) (server : List Quote)
    (l s : Quote)
    (hu : uniqueIds qs0) (hsn : (server.map (fun q => q.id)).Nodup)
    (hl : l ∈ qs0) (hs : s ∈ server) (hid : l.id = s.id)
    (hnewer : jsLt (tsOf s) (tsOf l) = true) :
    (⟨l, s⟩ : Conflict) ∈ (mergeServerIntoLocal qs0 pending server).2 ∧
    s ∈ (mergeServerIntoLocal qs0 pending server).1 ∧
    (∀ q ∈ (mergeServerIntoLocal qs0 pending server).1, q.id = s.id → q = s) := by
  have hent : entriesOf server = server.map (fun s => (s.id, s)) :=
    entriesOf_of_nodup hsn
  have hf : byIdLast qs0 s.id = some l := by
    rw [← hid]
    exact byIdLast_mem_of_unique hu hl
  have hrepl : ∀ q ∈ (mergeServerIntoLocal qs0 pending server).1,
      q.id = s.id → q = s := by
    intro q hq hqid
    rcases (merge_main_facts qs0 pending server hu hsn).2 s hs q hq hqid
      with h | ⟨hq0, hts⟩
    · exact h
    · exfalso
      have hql : q = l := by
        refine unique_elim hu hq0 hl ?_
        rw [hqid, hid]
      rw [hql] at hts
      rw [← hts, jsLt_irrefl] at hnewer
      exact Bool.false_ne_true hnewer
  refine ⟨?_, ?_, hrepl⟩
  · rw [mergeServerIntoLocal, hent]
    refine mergeRun_conflict_older (byIdLast qs0) pending
      (fun sid l' h => (byIdLast_some h).2) _ _ (s.id, s) l
      (List.mem_map_of_mem _ hs) ?_ hf hnewer ?_
    · intro p hp
      rcases List.mem_map.mp hp with ⟨s', _, rfl⟩
      rfl
    · exact hasIdB_iff.mpr ⟨l, hl, rfl⟩
  · have hhas : hasIdB (mergeServerIntoLocal qs0 pending server).1 s.id = true := by
      apply merge_hasIdB
      exact hasIdB_iff.mpr ⟨l, hl, hid⟩
    rcases hasIdB_iff.mp hhas with ⟨q, hq, hqid⟩
    have := hrepl q hq hqid
    rw [← this]
    exact hq

/-- C1: in `mergeServerIntoLocal`, when a remote quote `s` and a local quote
`l` share an id and the local `updatedAt` is strictly greater
(lexicographically, after the `|| ""` default) than the remote one, the
remote version still replaces the local quote in the merged collection —
every merged quote carrying that id is `s` and `s` is present — and a
Conflict `{local := l, server := s}` is recorded, so the caller can manually
restore the local version.  Stated for collections satisfying the store's
id-uniqueness invariant on both sides. -/
theorem merge_remote_wins_when_local_newer
    (qs0 : List Quote) (pending : List PendingChange) (server : List Quote)
    (l s : Quote)
    (hu : uniqueIds qs0) (hsn : (server.map (fun q => q.id)).Nodup)
    (hl : l ∈ qs0) (hs : s ∈ server) (hid : l.id = s.id)
    (hnewer : jsLt (tsOf s) (tsOf l) = true) :
    (⟨l, s⟩ : Conflict) ∈ (mergeServerIntoLocal qs0 pending server).2 ∧
    s ∈ (mergeServerIntoLocal qs0 pending server).1 ∧
    (∀ q ∈ (mergeServerIntoLocal qs0 pending server).1, q.id = s.id → q = s) :=
  merge_local_newer_core qs0 pending server l s hu hsn hl hs hid hnewer

/-- Witness for C1 at a concrete input: local `{id "x", text "A",
updatedAt "2024-02-01"}` against remote `{id "x", text "B",
updatedAt "2024-01-01"}`. -/
theorem merge_remote_wins_when_local_newer_witness :
    (⟨⟨"x", "A", "c", some "2024-02-01"⟩, ⟨"x", "B", "c", some "2024-01-01"⟩⟩ : Conflict)
      ∈ (mergeServerIntoLocal [⟨"x", "A", "c", some "2024-02-01"⟩] []
          [⟨"x", "B", "c", some "2024-01-01"⟩]).2 ∧
    (⟨"x", "B", "c", some "2024-01-01"⟩ : Quote)
      ∈ (mergeServerIntoLocal [⟨"x", "A", "c", some "2024-02-01"⟩] []
          [⟨"x", "B", "c", some "2024-01-01"⟩]).1 ∧
    (∀ q ∈ (mergeServerIntoLocal [⟨"x", "A", "c", some "2024-02-01"⟩] []
          [⟨"x", "B", "c", some "2024-01-01"⟩]).1,
      q.id = (⟨"x", "B", "c", some "2024-01-01"⟩ : Quote).id →
        q = ⟨"x", "B", "c", some "2024-01-01"⟩) :=
  merge_remote_wins_when_local_newer
    [⟨"x", "A", "c", some "2024-02-01"⟩] [] [⟨"x", "B", "c", some "2024-01-01"⟩]
    ⟨"x", "A", "c", some "2024-02-01"⟩ ⟨"x", "B", "c", some "2024-01-01"⟩
    (by decide) (by decide) (by decide) (by decide) rfl (by decide)

/- ### Claim C2 -/

/-- C2: in `mergeServerIntoLocal`, when a remote quote `s` and a local quote
`l` share an id and the remote `updatedAt` is strictly greater
(lexicographically), the remote version replaces the local quote, and when
some PendingChange references that local id AND the local and remote text
differ, exactly one Conflict `{local := l, server := s}` is recorded.
Stated for collections satisfying the id-uniqueness invariant on both
sides. -/
theorem merge_remote_newer_replaces_and_flags
    (qs0 : List Quote) (pending : List PendingChange) (server : List Quote)
    (l s : Quote)
    (hu : uniqueIds qs0) (hsn : (server.map (fun q => q.id)).Nodup)
    (hl : l ∈ qs0) (hs : s ∈ server) (hid : l.id = s.id)
    (hnewer : jsLt (tsOf l) (tsOf s) = true)
    (hpend : pending.any (fun ch => ch.quote.id == l.id) = true)
    (htext : l.text ≠ s.text) :
    s ∈ (mergeServerIntoLocal qs0 pending server).1 ∧
    (∀ q ∈ (mergeServerIntoLocal qs0 pending server).1, q.id = s.id → q = s) ∧
    ((mergeServerIntoLocal qs0 pending server).2.count ⟨l, s⟩ = 1) := by
  have hent : entriesOf server = server.map (fun s => (s.id, s)) :=
    entriesOf_of_nodup hsn
  have hf : byIdLast qs0 s.id = some l := by
    rw [← hid]
    exact byIdLast_mem_of_unique hu hl
  have hbne : (l.text == s.text) = false := beq_eq_false_iff_ne.mpr htext
  have hrepl : ∀ q ∈ (mergeServerIntoLocal qs0 pending server).1,
      q.id = s.id → q = s := by
    intro q hq hqid
    rcases (merge_main_facts qs0 pending server hu hsn).2 s hs q hq hqid
      with h | ⟨hq0, hts⟩
    · exact h
    · exfalso
      have hql : q = l := by
        refine unique_elim hu hq0 hl ?_
        rw [hqid, hid]
      rw [hql] at hts
      rw [hts, jsLt_irrefl] at hnewer
      exact Bool.false_ne_true hnewer
  have hmem : s ∈ (mergeServerIntoLocal qs0 pending server).1 := by
    have hhas : hasIdB (mergeServerIntoLocal qs0 pending server).1 s.id = true := by
      apply merge_hasIdB
      exact hasIdB_iff.mpr ⟨l, hl, hid⟩
    rcases hasIdB_iff.mp hhas with ⟨q, hq, hqid⟩
    have := hrepl q hq hqid
    rw [← this]
    exact hq
  refine ⟨hmem, hrepl, ?_⟩
  -- exactly one conflict with server part s
  have hcmem : (⟨l, s⟩ : Conflict) ∈ (mergeServerIntoLocal qs0 pending server).2 := by
    rw [mergeServerIntoLocal, hent]
    exact mergeRun_conflict_newer (byIdLast qs0) pending _ _ (s.id, s) l
      (List.mem_map_of_mem _ hs) hf hnewer hpend hbne
  rcases List.append_of_mem hs with ⟨pre, post, hsplit⟩
  have hpre_ne : ∀ q ∈ pre, q.id ≠ s.id := by
    intro q hq hcontra
    rw [hsplit] at hsn
    simp only [List.map_append, List.map_cons] at hsn
    rcases List.nodup_append.mp hsn with ⟨_, _, hdisj⟩
    exact hdisj (List.mem_map_of_mem _ hq)
      (hcontra ▸ List.mem_cons_self s.id _)
  have hpost_ne : ∀ q ∈ post, q.id ≠ s.id := by
    intro q hq hcontra
    rw [hsplit] at hsn
    simp only [List.map_append, List.map_cons] at hsn
    rcases List.nodup_append.mp hsn with ⟨_, hcons, _⟩
    rcases List.nodup_cons.mp hcons with ⟨hnot, _⟩
    exact hnot (hcontra ▸ List.mem_map_of_mem (fun q => q.id) hq)
  have hcountP : (mergeServerIntoLocal qs0 pending server).2.countP
      (fun c => c.server.id == s.id) = 1 := by
    rw [mergeServerIntoLocal, hent, hsplit, List.map_append, List.map_cons]
    rw [mergeRun_append]
    have hstep_run : mergeRun (byIdLast qs0) pending
        (mergeRun (byIdLast qs0) pending (qs0, []) (pre.map (fun s => (s.id, s))))
        ((s.id, s) :: post.map (fun s => (s.id, s))) =
      mergeRun (byIdLast qs0) pending
        (mergeStep (byIdLast qs0) pending
          (mergeRun (byIdLast qs0) pending (qs0, []) (pre.map (fun s => (s.id, s))))
          (s.id, s))
        (post.map (fun s => (s.id, s))) := by
      simp only [mergeRun]
    rw [hstep_run]
    rw [mergeRun_countP_avoid _ _ _ _ s.id (by
      intro p hp
      rcases List.mem_map.mp hp with ⟨q, hq, rfl⟩
      exact hpost_ne q hq)]
    set stA := mergeRun (byIdLast qs0) pending (qs0, []) (pre.map (fun s => (s.id, s))) with hstA
    have hstepA := @mergeStep_newer (byIdLast qs0) pending stA (s.id, s) l hf hnewer
    rw [hstepA]
    have hcond : (pending.any (fun ch => ch.quote.id == l.id)
        && !(l.text == s.text)) = true := by
      rw [hpend, hbne]
      rfl
    simp only [hcond, if_true]
    rw [List.countP_append]
    have hA : stA.2.countP (fun c => c.server.id == s.id) = 0 := by
      rw [hstA]
      rw [mergeRun_countP_avoid _ _ _ _ s.id (by
        intro p hp
        rcases List.mem_map.mp hp with ⟨q, hq, rfl⟩
        exact hpre_ne q hq)]
      rfl
    rw [hA]
    simp
  have hle : (mergeServerIntoLocal qs0 pending server).2.count ⟨l, s⟩ ≤ 1 := by
    rw [← hcountP]
    rw [List.count]
    apply List.countP_mono_left
    intro c _ hc
    have : c = ⟨l, s⟩ := beq_iff_eq.mp hc
    rw [this]
    exact beq_iff_eq.mpr rfl
  have hge : 1 ≤ (mergeServerIntoLocal qs0 pending server).2.count ⟨l, s⟩ :=
    List.count_pos_iff.mpr hcmem
  omega

/-- Witness for C2, realising the spec's Scenario B: local
`{id "x", text "A", updatedAt "2024-01-01"}` with a pending update, remote
`{id "x", text "B", updatedAt "2024-02-01"}`. -/
theorem merge_remote_newer_replaces_and_flags_witness :
    (⟨"x", "B", "c", some "2024-02-01"⟩ : Quote)
      ∈ (mergeServerIntoLocal [⟨"x", "A", "c", some "2024-01-01"⟩]
          [⟨"update", ⟨"x", "A", "c", some "2024-01-01"⟩⟩]
          [⟨"x", "B", "c", some "2024-02-01"⟩]).1 ∧
    (∀ q ∈ (mergeServerIntoLocal [⟨"x", "A", "c", some "2024-01-01"⟩]
          [⟨"update", ⟨"x", "A", "c", some "2024-01-01"⟩⟩]
          [⟨"x", "B", "c", some "2024-02-01"⟩]).1,
      q.id = (⟨"x", "B", "c", some "2024-02-01"⟩ : Quote).id →
        q = ⟨"x", "B", "c", some "2024-02-01"⟩) ∧
    ((mergeServerIntoLocal [⟨"x", "A", "c", some "2024-01-01"⟩]
          [⟨"update", ⟨"x", "A", "c", some "2024-01-01"⟩⟩]
          [⟨"x", "B", "c", some "2024-02-01"⟩]).2.count
      ⟨⟨"x", "A", "c", some "2024-01-01"⟩, ⟨"x", "B", "c", some "2024-02-01"⟩⟩ = 1) :=
  merge_remote_newer_replaces_and_flags
    [⟨"x", "A", "c", some "2024-01-01"⟩]
    [⟨"update", ⟨"x", "A", "c", some "2024-01-01"⟩⟩]
    [⟨"x", "B", "c", some "2024-02-01"⟩]
    ⟨"x", "A", "c", some "2024-01-01"⟩ ⟨"x", "B", "c", some "2024-02-01"⟩
    (by decide) (by decide) (by decide) (by decide) rfl (by decide)
    (by decide) (by decide)

/- ### Claim C9 -/

/-- C9: every quote present locally whose id does not occur in the remote
collection is kept, completely unchanged, in the merged collection —
`mergeServerIntoLocal` neither removes nor alters local-only quotes (no
uniqueness assumptions needed). -/
theorem merge_preserves_local_only
    (qs0 : List Quote) (pending : List PendingChange) (server : List Quote)
    (q : Quote) (hq : q ∈ qs0) (hnot : ∀ s ∈ server, s.id ≠ q.id) :
    q ∈ (mergeServerIntoLocal qs0 pending server).1 := by
  rw [mergeServerIntoLocal]
  apply mergeRun_mem_preserved (byIdLast qs0) pending
    (fun sid l h => (byIdLast_some h).2) (entriesOf server) (qs0, []) q hq
  intro p hp
  rcases entriesOf_mem hp with ⟨s, hsmem, rfl⟩
  exact Or.inl (fun hc => hnot s hsmem (hc.symm))

/-- Witness for C9, realising the spec's Scenario A: local
`{id "local-1", text "A"}` absent remotely survives the merge untouched. -/
theorem merge_preserves_local_only_witness :
    (⟨"local-1", "A", "c", some "2024-01-01"⟩ : Quote)
      ∈ (mergeServerIntoLocal [⟨"local-1", "A", "c", some "2024-01-01"⟩]
          [⟨"create", ⟨"local-1", "A", "c", some "2024-01-01"⟩⟩]
          [⟨"7", "B", "c", some "2024-02-01"⟩]).1 :=
  merge_preserves_local_only
    [⟨"local-1", "A", "c", some "2024-01-01"⟩]
    [⟨"create", ⟨"local-1", "A", "c", some "2024-01-01"⟩⟩]
    [⟨"7", "B", "c", some "2024-02-01"⟩]
    ⟨"local-1", "A", "c", some "2024-01-01"⟩
    (by decide) (by decide)

/- ### Claim C10 -/

theorem jsLt_empty {t : String} (h : t ≠ "") : jsLt "" t = true := by
  cases t with
  | mk data =>
    cases data with
    | nil => exact absurd rfl h
    | cons c cs => rfl

/-- C10: a missing `updatedAt` is treated as the empty string by the merge
comparison.  Consequently (a) when the local quote `l` carries a non-empty
timestamp and the same-id remote quote `s` has none, the local-is-newer
branch runs: the remote version is still installed and a conflict
`{local := l, server := s}` is recorded; and (b) when both sides lack
`updatedAt`, the two compare equal and nothing changes — `l` stays in the
collection and no conflict mentioning that server id is produced. -/
theorem merge_missing_updatedAt
    (qs0 : List Quote) (pending : List PendingChange) (server : List Quote)
    (l s : Quote)
    (hu : uniqueIds qs0) (hsn : (server.map (fun q => q.id)).Nodup)
    (hl : l ∈ qs0) (hs : s ∈ server) (hid : l.id = s.id) :
    ((∀ t, l.updatedAt = some t → t ≠ "" → s.updatedAt = none →
      (⟨l, s⟩ : Conflict) ∈ (mergeServerIntoLocal qs0 pending server).2 ∧
      s ∈ (mergeServerIntoLocal qs0 pending server).1 ∧
      (∀ q ∈ (mergeServerIntoLocal qs0 pending server).1, q.id = s.id → q = s))) ∧
    (l.updatedAt = none → s.updatedAt = none →
      l ∈ (mergeServerIntoLocal qs0 pending server).1 ∧
      (∀ c ∈ (mergeServerIntoLocal qs0 pending server).2, c.server.id ≠ s.id)) := by
  have hent : entriesOf server = server.map (fun s => (s.id, s)) :=
    entriesOf_of_nodup hsn
  have hf : byIdLast qs0 s.id = some l := by
    rw [← hid]
    exact byIdLast_mem_of_unique hu hl
  constructor
  · intro t hlt htne hsnone
    have hnewer : jsLt (tsOf s) (tsOf l) = true := by
      have h1 : tsOf s = "" := by rw [tsOf, hsnone]; rfl
      have h2 : tsOf l = t := by rw [tsOf, hlt]; rfl
      rw [h1, h2]
      exact jsLt_empty htne
    exact merge_local_newer_core qs0 pending server l s hu hsn hl hs hid hnewer
  · intro hlnone hsnone
    have hts_l : tsOf l = "" := by rw [tsOf, hlnone]; rfl
    have hts_s : tsOf s = "" := by rw [tsOf, hsnone]; rfl
    have hlt1 : jsLt (tsOf l) (tsOf s) = false := by
      rw [hts_l, hts_s]; exact jsLt_irrefl ""
    have hlt2 : jsLt (tsOf s) (tsOf l) = false := by
      rw [hts_l, hts_s]; exact jsLt_irrefl ""
    constructor
    · rw [mergeServerIntoLocal]
      apply mergeRun_mem_preserved (byIdLast qs0) pending
        (fun sid l' h => (byIdLast_some h).2) (entriesOf server) (qs0, []) l hl
      intro p hp
      rcases entriesOf_mem hp with ⟨s', hsmem, rfl⟩
      by_cases hcase : s'.id = s.id
      · have hss : s' = s :=
          List.inj_on_of_nodup_map hsn hsmem hs hcase
        subst hss
        exact Or.inr ⟨l, hf, hlt1, hlt2⟩
      · exact Or.inl (fun hcon => hcase (hcon.symm.trans hid))
    · -- no conflict mentions this server id
      rcases List.append_of_mem hs with ⟨pre, post, hsplit⟩
      have hpre_ne : ∀ q ∈ pre, q.id ≠ s.id := by
        intro q hq hcontra
        rw [hsplit] at hsn
        simp only [List.map_append, List.map_cons] at hsn
        rcases List.nodup_append.mp hsn with ⟨_, _, hdisj⟩
        exact hdisj (List.mem_map_of_mem _ hq)
          (hcontra ▸ List.mem_cons_self s.id _)
      have hpost_ne : ∀ q ∈ post, q.id ≠ s.id := by
        intro q hq hcontra
        rw [hsplit] at hsn
        simp only [List.map_append, List.map_cons] at hsn
        rcases List.nodup_append.mp hsn with ⟨_, hcons, _⟩
        rcases List.nodup_cons.mp hcons with ⟨hnotin, _⟩
        exact hnotin (hcontra ▸ List.mem_map_of_mem (fun q => q.id) hq)
      have hcountP : (mergeServerIntoLocal qs0 pending server).2.countP
          (fun c => c.server.id == s.id) = 0 := by
        rw [mergeServerIntoLocal, hent, hsplit, List.map_append, List.map_cons]
        rw [mergeRun_append]
        have hstep_run : mergeRun (byIdLast qs0) pending
            (mergeRun (byIdLast qs0) pending (qs0, []) (pre.map (fun s => (s.id, s))))
            ((s.id, s) :: post.map (fun s => (s.id, s))) =
          mergeRun (byIdLast qs0) pending
            (mergeStep (byIdLast qs0) pending
              (mergeRun (byIdLast qs0) pending (qs0, []) (pre.map (fun s => (s.id, s))))
              (s.id, s))
            (post.map (fun s => (s.id, s))) := by
          simp only [mergeRun]
        rw [hstep_run]
        rw [mergeRun_countP_avoid _ _ _ _ s.id (by
          intro p hp
          rcases List.mem_map.mp hp with ⟨q, hq, rfl⟩
          exact hpost_ne q hq)]
        rw [mergeStep_equal hf hlt1 hlt2]
        rw [mergeRun_countP_avoid _ _ _ _ s.id (by
          intro p hp
          rcases List.mem_map.mp hp with ⟨q, hq, rfl⟩
          exact hpre_ne q hq)]
        rfl
      intro c hc hcontra
      have := List.countP_eq_zero.mp hcountP c hc
      exact this (beq_iff_eq.mpr hcontra)

/-- Witness for C10 at two concrete inputs: (a) local timestamped
`{id "x", updatedAt "2024-01-01"}` vs remote `{id "x"}` without `updatedAt`;
(b) both `{id "y"}` without `updatedAt`. -/
theorem merge_missing_updatedAt_witness :
    ((⟨⟨"x", "A", "c", some "2024-01-01"⟩, ⟨"x", "B", "c", none⟩⟩ : Conflict)
      ∈ (mergeServerIntoLocal [⟨"x", "A", "c", some "2024-01-01"⟩] []
          [⟨"x", "B", "c", none⟩]).2 ∧
     (⟨"x", "B", "c", none⟩ : Quote)
      ∈ (mergeServerIntoLocal [⟨"x", "A", "c", some "2024-01-01"⟩] []
          [⟨"x", "B", "c", none⟩]).1 ∧
     (∀ q ∈ (mergeServerIntoLocal [⟨"x", "A", "c", some "2024-01-01"⟩] []
          [⟨"x", "B", "c", none⟩]).1,
       q.id = (⟨"x", "B", "c", none⟩ : Quote).id → q = ⟨"x", "B", "c", none⟩)) ∧
    ((⟨"y", "A", "c", none⟩ : Quote)
      ∈ (mergeServerIntoLocal [⟨"y", "A", "c", none⟩] []
          [⟨"y", "B", "c", none⟩]).1 ∧
     (∀ c ∈ (mergeServerIntoLocal [⟨"y", "A", "c", none⟩] []
          [⟨"y", "B", "c", none⟩]).2,
       c.server.id ≠ (⟨"y", "B", "c", none⟩ : Quote).id)) :=
  ⟨(merge_missing_updatedAt [⟨"x", "A", "c", some "2024-01-01"⟩] []
      [⟨"x", "B", "c", none⟩] ⟨"x", "A", "c", some "2024-01-01"⟩
      ⟨"x", "B", "c", none⟩ (by decide) (by decide) (by decide) (by decide)
      rfl).1 "2024-01-01" rfl (by decide) rfl,
   (merge_missing_updatedAt [⟨"y", "A", "c", none⟩] []
      [⟨"y", "B", "c", none⟩] ⟨"y", "A", "c", none⟩
      ⟨"y", "B", "c", none⟩ (by decide) (by decide) (by decide) (by decide)
      rfl).2 rfl rfl⟩

/- ### Claim C3 -/

theorem byIdLast_of_hasId {qs : List Quote} {x : String}
    (h : hasIdB qs x = true) : ∃ q, byIdLast qs x = some q := by
  cases hb : byIdLast qs x with
  | some q => exact ⟨q, rfl⟩
  | none =>
    rcases hasIdB_iff.mp h with ⟨q, hq, hqx⟩
    exact absurd hqx (byIdLast_none hb q hq)

theorem mergeRun_key_present (f : String → Option Quote)
    (pd : List PendingChange) (Hf : ∀ sid l, f sid = some l → l.id = sid) :
    ∀ (es : List (String × Quote)) (st : List Quote × List Conflict),
      (∀ p ∈ es, (p.2).id = p.1) →
      (∀ sid l, f sid = some l → hasIdB st.1 sid = true) →
      ∀ p ∈ es, hasIdB (mergeRun f pd st es).1 p.1 = true := by
  intro es
  induction es with
  | nil => intro st _ _ p hp; cases hp
  | cons hd rest ih =>
    intro st he hfind p hp
    have he_rest : ∀ p' ∈ rest, (p'.2).id = p'.1 :=
      fun p' hp' => he p' (List.mem_cons_of_mem hd hp')
    have hfind' : ∀ sid l, f sid = some l →
        hasIdB (mergeStep f pd st hd).1 sid = true :=
      fun sid l hsl => mergeStep_hasIdB_mono Hf
        (he hd (List.mem_cons_self hd rest)) sid (hfind sid l hsl)
    rcases List.mem_cons.mp hp with rfl | hmem
    · simp only [mergeRun]
      apply mergeRun_hasIdB_mono f pd Hf rest _ he_rest
      cases hf : f p.1 with
      | none =>
        rw [mergeStep_none hf]
        show hasIdB (st.1 ++ [p.2]) p.1 = true
        refine hasIdB_iff.mpr ⟨p.2, ?_, he p (List.mem_cons_self p rest)⟩
        exact List.mem_append_right _ (List.mem_singleton.mpr rfl)
      | some l =>
        have := hfind p.1 l hf
        exact mergeStep_hasIdB_mono Hf (he p (List.mem_cons_self p rest)) p.1 this
    · simp only [mergeRun]
      exact ih (mergeStep f pd st hd) he_rest hfind' p hmem

/-- The claim of C3 as written is false: running the merge a second time on
the state produced by the first run yields an empty conflict list, which is
not the first run's (non-empty) conflict set.  Concrete input: local
`{id "x", text "A", updatedAt "2"}`, no pending changes, remote
`{id "x", text "B", updatedAt "1"}`. -/
theorem merge_idempotence_counterexample :
    (mergeServerIntoLocal
        (mergeServerIntoLocal [⟨"x", "A", "c", some "2"⟩] []
          [⟨"x", "B", "c", some "1"⟩]).1
        [] [⟨"x", "B", "c", some "1"⟩]).2 ≠
    (mergeServerIntoLocal [⟨"x", "A", "c", some "2"⟩] []
        [⟨"x", "B", "c", some "1"⟩]).2 := by
  decide

/-- C3 (amended): for inputs satisfying the id-uniqueness invariants, running
`mergeServerIntoLocal` a second time on the collection produced by the first
run yields that same collection and an EMPTY conflict set — no duplicate
insertions and no duplicate conflicts; the second conflict set equals the
first only when the first run produced none. -/
theorem merge_idempotent_second_run
    (qs0 : List Quote) (pending : List PendingChange) (server : List Quote)
    (hu : uniqueIds qs0) (hsn : (server.map (fun q => q.id)).Nodup) :
    mergeServerIntoLocal (mergeServerIntoLocal qs0 pending server).1
        pending server
      = ((mergeServerIntoLocal qs0 pending server).1, []) := by
  have hent : entriesOf server = server.map (fun s => (s.id, s)) :=
    entriesOf_of_nodup hsn
  have hfacts := merge_main_facts qs0 pending server hu hsn
  have hfind0 : ∀ sid l, byIdLast qs0 sid = some l → hasIdB qs0 sid = true := by
    intro sid l h
    rcases byIdLast_some h with ⟨hl, hlid⟩
    exact hasIdB_iff.mpr ⟨l, hl, hlid⟩
  have hpresent : ∀ s ∈ server,
      hasIdB (mergeServerIntoLocal qs0 pending server).1 s.id = true := by
    intro s hs
    have := mergeRun_key_present (byIdLast qs0) pending
      (fun sid l h => (byIdLast_some h).2) (entriesOf server) (qs0, [])
      (entriesOf_values_ok server) hfind0 (s.id, s)
      (by rw [hent]; exact List.mem_map_of_mem _ hs)
    rw [mergeServerIntoLocal]
    exact this
  show mergeRun (byIdLast (mergeServerIntoLocal qs0 pending server).1) pending
      ((mergeServerIntoLocal qs0 pending server).1, []) (entriesOf server)
    = ((mergeServerIntoLocal qs0 pending server).1, [])
  apply mergeRun_identity
  intro p hp
  rcases entriesOf_mem hp with ⟨s, hsmem, rfl⟩
  rcases byIdLast_of_hasId (hpresent s hsmem) with ⟨q0, hq0⟩
  rcases byIdLast_some hq0 with ⟨hq0mem, hq0id⟩
  have hts : tsOf q0 = tsOf s := by
    rcases hfacts.2 s hsmem q0 hq0mem hq0id with rfl | ⟨_, hts⟩
    · rfl
    · exact hts
  refine ⟨q0, hq0, ?_, ?_⟩
  · rw [hts]; exact jsLt_irrefl _
  · rw [hts]; exact jsLt_irrefl _

/-- Witness for the amended C3 at the counterexample's input. -/
theorem merge_idempotent_second_run_witness :
    mergeServerIntoLocal
        (mergeServerIntoLocal [⟨"x", "A", "c", some "2"⟩] []
          [⟨"x", "B", "c", some "1"⟩]).1
        [] [⟨"x", "B", "c", some "1"⟩]
      = ((mergeServerIntoLocal [⟨"x", "A", "c", some "2"⟩] []
          [⟨"x", "B", "c", some "1"⟩]).1, []) :=
  merge_idempotent_second_run [⟨"x", "A", "c", some "2"⟩] []
    [⟨"x", "B", "c", some "1"⟩] (by decide) (by decide)

/- ### Claim C4 -/

/-- C4: when the push attempt for the `j`-th PendingChange fails (transport
error / non-ok status, i.e. the response oracle answers `none`), that
PendingChange remains in the outbox produced by `pushLocalChanges`, a failed
attempt never alters the quotes collection, and a cycle in which every
attempt fails leaves both the collection and the outbox exactly unchanged —
failures are retried, never escalated. -/
theorem outbox_failure_keeps_pending
    (resp : Nat → RemoteReq → Option Quote) (qs0 : List Quote)
    (pending : List PendingChange) (j : Nat) (ch : PendingChange)
    (hj : pending.get? j = some ch)
    (hfail : attemptOk (resp j) ch = false) :
    ch ∈ (pushLocalChanges resp qs0 pending).2 ∧
    (∀ qs, (pushOne (resp j) qs ch).1 = qs) ∧
    ((∀ k, ∀ c ∈ pending, attemptOk (resp k) c = false) →
      pushLocalChanges resp qs0 pending = (qs0, pending)) := by
  refine ⟨?_, ?_, ?_⟩
  · rw [pushLocalChanges]
    apply pushAux_keeps_failed resp pending 0 qs0 [] j ch hj
    rw [Nat.zero_add]
    exact hfail
  · intro qs
    apply pushOne_fail
    rw [pushOne_snd]
    exact hfail
  · intro hall
    rw [pushLocalChanges, pushAux_all_fail resp pending 0 qs0 [] hall]
    rfl

/-- Witness for C4, realising the spec's Scenario D: one queued create, all
requests answered by a transport failure. -/
theorem outbox_failure_keeps_pending_witness :
    (⟨"create", ⟨"local-1", "A", "c", some "T"⟩⟩ : PendingChange)
      ∈ (pushLocalChanges (fun _ _ => none)
          [⟨"local-1", "A", "c", some "T"⟩]
          [⟨"create", ⟨"local-1", "A", "c", some "T"⟩⟩]).2 ∧
    (∀ qs, (pushOne ((fun (_ : Nat) (_ : RemoteReq) => (none : Option Quote)) 0) qs
        ⟨"create", ⟨"local-1", "A", "c", some "T"⟩⟩).1 = qs) ∧
    ((∀ k, ∀ c ∈ [(⟨"create", ⟨"local-1", "A", "c", some "T"⟩⟩ : PendingChange)],
        attemptOk ((fun (_ : Nat) (_ : RemoteReq) => (none : Option Quote)) k) c = false) →
      pushLocalChanges (fun _ _ => none)
          [⟨"local-1", "A", "c", some "T"⟩]
          [⟨"create", ⟨"local-1", "A", "c", some "T"⟩⟩]
        = ([⟨"local-1", "A", "c", some "T"⟩],
           [⟨"create", ⟨"local-1", "A", "c", some "T"⟩⟩])) :=
  outbox_failure_keeps_pending (fun _ _ => none)
    [⟨"local-1", "A", "c", some "T"⟩]
    [⟨"create", ⟨"local-1", "A", "c", some "T"⟩⟩] 0
    ⟨"create", ⟨"local-1", "A", "c", some "T"⟩⟩ rfl rfl

/- ### Claim C7 -/

/-- C7: during the outbox flush, an `update` PendingChange whose quote id is
canonical (non-empty, not `local-`-prefixed) is submitted as a `PUT` keyed by
that id, while one whose id bears the local prefix is submitted as a create
(`POST`); in both success cases every local quote holding the change's id is
replaced by the server-returned version and the change is dropped from the
outbox. -/
theorem outbox_update_routing
    (resp : Nat → RemoteReq → Option Quote) (qs0 : List Quote)
    (pending : List PendingChange) (ch : PendingChange)
    (hop : ch.op = "update") :
    (∀ (r : RemoteReq → Option Quote) (qs : List Quote) (updated : Quote),
      ch.quote.id ≠ "" → isLocalId ch.quote.id = false →
      r (.put ch.quote.id ch.quote) = some updated →
      pushOne r qs ch = (replaceById qs ch.quote.id updated, true)) ∧
    (∀ (r : RemoteReq → Option Quote) (qs : List Quote) (created : Quote),
      isLocalId ch.quote.id = true →
      r (.post ch.quote.text ch.quote.category ch.quote.updatedAt) = some created →
      pushOne r qs ch = (replaceById qs ch.quote.id created, true)) ∧
    ((∀ k, attemptOk (resp k) ch = true) →
      ch ∉ (pushLocalChanges resp qs0 pending).2) := by
  have hcr : (ch.op == "create") = false := by
    rw [hop]; rfl
  have hup : (ch.op == "update") = true := by
    rw [hop]; rfl
  refine ⟨?_, ?_, ?_⟩
  · intro r qs updated hne hloc hr
    have hcond : (ch.quote.id != "" && !(isLocalId ch.quote.id)) = true := by
      rw [hloc]
      simp [bne_iff_ne, hne]
    simp only [pushOne, hcr, hup, hcond, if_true, if_false, Bool.false_eq_true,
      hr]
  · intro r qs created hloc hr
    have hcond : (ch.quote.id != "" && !(isLocalId ch.quote.id)) = false := by
      rw [hloc]
      simp
    simp only [pushOne, hcr, hup, hcond, if_true, if_false, Bool.false_eq_true,
      hr]
  · intro hok
    rw [pushLocalChanges]
    exact pushAux_drops_succeeded resp ch hok pending 0 qs0 []
      (List.not_mem_nil ch)

/-- Witness for C7: an update carrying the canonical id "7" is routed as a
`PUT /quotes/7`, an update still carrying a `local-` id is routed as a
`POST`, and a change whose attempts always succeed leaves the outbox. -/
theorem outbox_update_routing_witness :
    (pushOne (fun req => if req = .put "7" ⟨"7", "t", "c", some "T"⟩
          then some ⟨"7", "t2", "c", some "T2"⟩ else none)
        [⟨"7", "t", "c", some "T"⟩]
        ⟨"update", ⟨"7", "t", "c", some "T"⟩⟩
      = (replaceById [⟨"7", "t", "c", some "T"⟩] "7" ⟨"7", "t2", "c", some "T2"⟩,
         true)) ∧
    (pushOne (fun req => if req = .post "t" "c" (some "T")
          then some ⟨"9", "t", "c", some "T"⟩ else none)
        [⟨"local-1-2", "t", "c", some "T"⟩]
        ⟨"update", ⟨"local-1-2", "t", "c", some "T"⟩⟩
      = (replaceById [⟨"local-1-2", "t", "c", some "T"⟩] "local-1-2"
          ⟨"9", "t", "c", some "T"⟩, true)) ∧
    (⟨"update", ⟨"7", "t", "c", some "T"⟩⟩ : PendingChange)
      ∉ (pushLocalChanges (fun _ _ => some ⟨"7", "t2", "c", some "T2"⟩)
          [⟨"7", "t", "c", some "T"⟩]
          [⟨"update", ⟨"7", "t", "c", some "T"⟩⟩]).2 :=
  ⟨(outbox_update_routing (fun _ _ => some ⟨"7", "t2", "c", some "T2"⟩)
      [⟨"7", "t", "c", some "T"⟩] [⟨"update", ⟨"7", "t", "c", some "T"⟩⟩]
      ⟨"update", ⟨"7", "t", "c", some "T"⟩⟩ rfl).1
      (fun req => if req = .put "7" ⟨"7", "t", "c", some "T"⟩
        then some ⟨"7", "t2", "c", some "T2"⟩ else none)
      [⟨"7", "t", "c", some "T"⟩] ⟨"7", "t2", "c", some "T2"⟩
      (by decide) (by decide) (by decide),
   (outbox_update_routing (fun _ _ => some ⟨"7", "t2", "c", some "T2"⟩)
      [⟨"7", "t", "c", some "T"⟩] [⟨"update", ⟨"7", "t", "c", some "T"⟩⟩]
      ⟨"update", ⟨"local-1-2", "t", "c", some "T"⟩⟩ rfl).2.1
      (fun req => if req = .post "t" "c" (some "T")
        then some ⟨"9", "t", "c", some "T"⟩ else none)
      [⟨"local-1-2", "t", "c", some "T"⟩] ⟨"9", "t", "c", some "T"⟩
      (by decide) (by decide),
   (outbox_update_routing (fun _ _ => some ⟨"7", "t2", "c", some "T2"⟩)
      [⟨"7", "t", "c", some "T"⟩] [⟨"update", ⟨"7", "t", "c", some "T"⟩⟩]
      ⟨"update", ⟨"7", "t", "c", some "T"⟩⟩ rfl).2.2
      (fun k => by decide)⟩

/- ### Claim C5 -/

/-- The claim of C5 as written is false: `idForLocal` concatenates
`Date.now()` with a random digit block and nothing checks for collisions, so
two adds observing the same clock value and random draw produce duplicate
ids in the collection.  Concrete input: two `addLocalQuote` calls with
`Date.now() = 5` and random draw `7`. -/
theorem local_id_unique_counterexample :
    ¬ uniqueIds (addLocalQuote
        (addLocalQuote [] [] "a" "c" 5 7 "T").1
        (addLocalQuote [] [] "a" "c" 5 7 "T").2
        "b" "d" 5 7 "T").1 := by
  decide

/-- C5 (amended): every locally added quote's id carries the recognizable
`local-` prefix, and—provided the generated id is fresh, i.e. not already in
the collection (which the timestamp+random generator makes likely but does
not guarantee)—id uniqueness is preserved by the add; `addLocalQuote` also
queues the matching `create` PendingChange, and once that create is pushed
successfully, every quote holding the local id is replaced by the
server-returned record bearing the canonical server-assigned id. -/
theorem local_id_lifecycle
    (qs : List Quote) (pending : List PendingChange)
    (text category : String) (t r : Nat) (now : String)
    (hu : uniqueIds qs) (hfresh : idForLocal t r ∉ idsOf qs) :
    isLocalId (idForLocal t r) = true ∧
    addLocalQuote qs pending text category t r now
      = (qs ++ [⟨idForLocal t r, text, category, some now⟩],
         pending ++ [⟨"create", ⟨idForLocal t r, text, category, some now⟩⟩]) ∧
    uniqueIds (addLocalQuote qs pending text category t r now).1 ∧
    (∀ (rr : RemoteReq → Option Quote) (qs2 : List Quote) (created : Quote),
      rr (.post text category (some now)) = some created →
      pushOne rr qs2 ⟨"create", ⟨idForLocal t r, text, category, some now⟩⟩
        = (replaceById qs2 (idForLocal t r) created, true)) := by
  refine ⟨?_, rfl, ?_, ?_⟩
  · show ("local-".data.isPrefixOf (idForLocal t r).data) = true
    rw [idForLocal]
    rw [List.isPrefixOf_iff_prefix]
    rw [String.data_append, String.data_append, String.data_append]
    rw [List.append_assoc, List.append_assoc]
    exact List.prefix_append _ _
  · show uniqueIds (qs ++ [⟨idForLocal t r, text, category, some now⟩])
    simp only [uniqueIds, idsOf, List.map_append, List.map_cons, List.map_nil,
      List.nodup_append]
    refine ⟨hu, List.nodup_singleton _, ?_⟩
    intro x hx hx2
    rcases List.mem_singleton.mp hx2 with rfl
    exact hfresh hx
  · intro rr qs2 created hr
    simp only [pushOne, if_pos (by rfl : (("create" : String) == "create") = true), hr]

/-- Witness for C5 (amended) on an empty store with clock 1 and draw 2. -/
theorem local_id_lifecycle_witness :
    isLocalId (idForLocal 1 2) = true ∧
    addLocalQuote [] [] "A" "c" 1 2 "T"
      = ([⟨idForLocal 1 2, "A", "c", some "T"⟩],
         [⟨"create", ⟨idForLocal 1 2, "A", "c", some "T"⟩⟩]) ∧
    uniqueIds (addLocalQuote [] [] "A" "c" 1 2 "T").1 ∧
    (∀ (rr : RemoteReq → Option Quote) (qs2 : List Quote) (created : Quote),
      rr (.post "A" "c" (some "T")) = some created →
      pushOne rr qs2 ⟨"create", ⟨idForLocal 1 2, "A", "c", some "T"⟩⟩
        = (replaceById qs2 (idForLocal 1 2) created, true)) :=
  local_id_lifecycle [] [] "A" "c" 1 2 "T" (by decide) (by decide)

/- ### Claim C6 -/

/-- C6: resolving a conflict with `Restore Local` replaces the collection's
entry for the conflicted id with the conflict's local snapshot's text and
category under the freshly taken timestamp `now` — strictly newer than the
snapshot's whenever the clock string moved forward — and enqueues a new
`update` PendingChange carrying the restored quote; `Keep Server` changes
neither the collection nor the outbox. -/
theorem resolve_conflict_actions
    (qs : List Quote) (pending : List PendingChange) (c : Conflict)
    (now : String) (hu : uniqueIds qs)
    (hhas : hasIdB qs c.localQ.id = true)
    (hlt : jsLt (tsOf c.localQ) now = true) :
    ({ c.localQ with updatedAt := some now } : Quote)
      ∈ (resolveRestoreLocal qs pending c now).1 ∧
    (∀ q ∈ (resolveRestoreLocal qs pending c now).1, q.id = c.localQ.id →
      q = { c.localQ with updatedAt := some now }) ∧
    (resolveRestoreLocal qs pending c now).2
      = pending ++ [⟨"update", { c.localQ with updatedAt := some now }⟩] ∧
    ({ c.localQ with updatedAt := some now } : Quote).text = c.localQ.text ∧
    ({ c.localQ with updatedAt := some now } : Quote).category = c.localQ.category ∧
    jsLt (tsOf c.localQ) (tsOf { c.localQ with updatedAt := some now }) = true ∧
    resolveKeepServer qs pending = (qs, pending) := by
  have hres : resolveRestoreLocal qs pending c now
      = (replaceFirst qs c.localQ.id { c.localQ with updatedAt := some now },
         pending ++ [⟨"update", { c.localQ with updatedAt := some now }⟩]) := by
    rw [resolveRestoreLocal, if_pos hhas]
  refine ⟨?_, ?_, ?_, rfl, rfl, ?_, rfl⟩
  · rw [hres]
    exact replaceFirst_mem_self hhas
  · intro q hq hqid
    rw [hres] at hq
    exact replaceFirst_unique hu rfl q hq hqid
  · rw [hres]
  · exact hlt

/-- Witness for C6, realising the spec's Scenario E: the server version of
id `x` is reverted to the conflict's preserved local snapshot with the newer
timestamp "3", and an update is queued. -/
theorem resolve_conflict_actions_witness :
    ({ (⟨"x", "A", "c", some "1"⟩ : Quote) with updatedAt := some "3" } : Quote)
      ∈ (resolveRestoreLocal [⟨"x", "B", "c", some "2"⟩] []
          ⟨⟨"x", "A", "c", some "1"⟩, ⟨"x", "B", "c", some "2"⟩⟩ "3").1 ∧
    (∀ q ∈ (resolveRestoreLocal [⟨"x", "B", "c", some "2"⟩] []
          ⟨⟨"x", "A", "c", some "1"⟩, ⟨"x", "B", "c", some "2"⟩⟩ "3").1,
      q.id = (⟨⟨"x", "A", "c", some "1"⟩, ⟨"x", "B", "c", some "2"⟩⟩ : Conflict).localQ.id →
      q = { (⟨⟨"x", "A", "c", some "1"⟩, ⟨"x", "B", "c", some "2"⟩⟩ : Conflict).localQ
            with updatedAt := some "3" }) ∧
    (resolveRestoreLocal [⟨"x", "B", "c", some "2"⟩] []
        ⟨⟨"x", "A", "c", some "1"⟩, ⟨"x", "B", "c", some "2"⟩⟩ "3").2
      = [] ++ [⟨"update",
          { (⟨⟨"x", "A", "c", some "1"⟩, ⟨"x", "B", "c", some "2"⟩⟩ : Conflict).localQ
            with updatedAt := some "3" }⟩] ∧
    ({ (⟨⟨"x", "A", "c", some "1"⟩, ⟨"x", "B", "c", some "2"⟩⟩ : Conflict).localQ
        with updatedAt := some "3" } : Quote).text
      = (⟨⟨"x", "A", "c", some "1"⟩, ⟨"x", "B", "c", some "2"⟩⟩ : Conflict).localQ.text ∧
    ({ (⟨⟨"x", "A", "c", some "1"⟩, ⟨"x", "B", "c", some "2"⟩⟩ : Conflict).localQ
        with updatedAt := some "3" } : Quote).category
      = (⟨⟨"x", "A", "c", some "1"⟩, ⟨"x", "B", "c", some "2"⟩⟩ : Conflict).localQ.category ∧
    jsLt (tsOf (⟨⟨"x", "A", "c", some "1"⟩, ⟨"x", "B", "c", some "2"⟩⟩ : Conflict).localQ)
      (tsOf { (⟨⟨"x", "A", "c", some "1"⟩, ⟨"x", "B", "c", some "2"⟩⟩ : Conflict).localQ
        with updatedAt := some "3" }) = true ∧
    resolveKeepServer [⟨"x", "B", "c", some "2"⟩] []
      = ([⟨"x", "B", "c", some "2"⟩], []) :=
  resolve_conflict_actions [⟨"x", "B", "c", some "2"⟩] []
    ⟨⟨"x", "A", "c", some "1"⟩, ⟨"x", "B", "c", some "2"⟩⟩ "3"
    (by decide) (by decide) (by decide)

/- ### Claim C8 -/

/-- The claim of C8 as written is false for the sync variant: its
`addLocalQuote` performs no validation, so adding a quote with empty text
and empty category still appends to both the collection and the outbox
instead of being rejected.  Concrete input: `addLocalQuote("", "")`. -/
theorem add_validation_counterexample :
    (addLocalQuote [] [] "" "" 1 2 "T").1 ≠ [] ∧
    (addLocalQuote [] [] "" "" 1 2 "T").2 ≠ [] := by
  decide

/-- C8 (amended): only the category-filtering variant validates at the
boundary — its `addQuote` rejects an empty (after trimming) text or
category with an alert, leaving the collection unchanged; the sync variant's
`addLocalQuote` (and its edit path) performs no such validation. -/
theorem add_quote_validation
    (qs : List SimpleQuote) (textRaw catRaw : String)
    (h : jsTrim textRaw = "" ∨ jsTrim catRaw = "") :
    addQuote qs textRaw catRaw = qs := by
  rcases h with h | h <;> simp [addQuote, h]

/-- Witness for C8 (amended): a whitespace-only text is rejected. -/
theorem add_quote_validation_witness :
    addQuote [⟨"t", "c"⟩] " " "Life" = [⟨"t", "c"⟩] :=
  add_quote_validation [⟨"t", "c"⟩] " " "Life" (by decide)
